import Mathlib

/-!
Verification of the seam-carving core of `scrunchie` (src/src/main.rs).

The Rust source is shallowly embedded below.  Machine integers are
modelled as `Nat` with an explicit `% 2^32` wherever the source performs
`u32` arithmetic whose overflow behaviour can matter; `u8` channel values
are `Nat` together with the well-formedness predicate `Pixel.wf`
(`< 256`).  Fallible operations (the `image` crate's panicking
`get_pixel`, `Option::unwrap`, `Vec` indexing that the theorems prove in
range) are modelled with `Option` or with `getD` plus in-range lemmas.
-/

set_option maxHeartbeats 1000000

/-- Position(u32, u32): an (column, row) coordinate pair (main.rs line 8). -/
structure Position where
  x : Nat
  y : Nat
deriving DecidableEq, Repr

/-- One RGB pixel; in Rust each channel is a `u8` (`image::Rgb<u8>`). -/
structure Pixel where
  r : Nat
  g : Nat
  b : Nat
deriving DecidableEq, Repr

/-- Channel values of a pixel fit in `u8`. -/
def Pixel.wf (p : Pixel) : Prop := p.r < 256 ∧ p.g < 256 ∧ p.b < 256

instance (p : Pixel) : Decidable p.wf :=
  inferInstanceAs (Decidable (_ ∧ _ ∧ _))

/-- An `image::RgbImage`: a width, a height, and a row-major flat pixel
buffer (index of (x, y) is `x + y * width`). -/
structure RgbImage where
  width : Nat
  height : Nat
  pixels : List Pixel
deriving DecidableEq, Repr

/-- Structural invariant of an `RgbImage`: the buffer has exactly
`width * height` pixels and every channel fits in `u8`. -/
def RgbImage.wf (img : RgbImage) : Prop :=
  img.pixels.length = img.width * img.height ∧ ∀ p ∈ img.pixels, p.wf

instance (img : RgbImage) : Decidable img.wf :=
  inferInstanceAs (Decidable (_ ∧ _))

/-- `ImageBuffer::get_pixel` panics when (x, y) is out of bounds; the
panic is modelled by `none`. -/
def RgbImage.get_pixel (img : RgbImage) (x y : Nat) : Option Pixel :=
  if x < img.width ∧ y < img.height then img.pixels.get? (x + y * img.width)
  else none

/-- Total pixel read used on the in-bounds accesses that the lemmas
justify separately. -/
def RgbImage.pixelD (img : RgbImage) (x y : Nat) : Pixel :=
  (img.get_pixel x y).getD ⟨0, 0, 0⟩

/-- Wrapping `u32` addition (release-mode `+` on `u32`). -/
def u32_add (a b : Nat) : Nat := (a + b) % 4294967296

/-- get_von_neumann_neighbors (main.rs lines 17-39), in the exact push
order of the source: horizontal neighbor(s) first, then vertical. -/
def get_von_neumann_neighbors (img : RgbImage) (x y : Nat) : List Position :=
  (if x = 0 then [⟨x + 1, y⟩]
   else if x = img.width - 1 then [⟨x - 1, y⟩]
   else [⟨x - 1, y⟩, ⟨x + 1, y⟩])
  ++
  (if y = 0 then [⟨x, y + 1⟩]
   else if y = img.height - 1 then [⟨x, y - 1⟩]
   else [⟨x, y + 1⟩, ⟨x, y - 1⟩])

/-- One channel's contribution
`(neighbor as i32 - center as i32).pow(2) as u32` (main.rs lines 47-49):
for `u8` inputs the signed difference is exact and its square is
non-negative and below 2^31, so the value is `natAbs` of the integer
difference, squared. -/
def sq_channel_diff (a b : Nat) : Nat := ((a : Int) - (b : Int)).natAbs ^ 2

/-- Total squared distance between two pixels over the three channels. -/
def pixel_contrib (c n : Pixel) : Nat :=
  sq_channel_diff n.r c.r + sq_channel_diff n.g c.g + sq_channel_diff n.b c.b

/-- One neighbour's step of the energy accumulation: three wrapping
`u32` additions (`energy += ...` three times, main.rs lines 47-49). -/
def energy_step (c : Pixel) (e : Nat) (n : Pixel) : Nat :=
  u32_add (u32_add (u32_add e (sq_channel_diff n.r c.r)) (sq_channel_diff n.g c.g))
    (sq_channel_diff n.b c.b)

/-- Evaluate a fallible function on each list element in order, failing
as soon as one evaluation fails: the behaviour of a Rust loop that
pushes results and whose body can panic. -/
def option_traverse {α β : Type} (f : α → Option β) : List α → Option (List β)
  | [] => some []
  | a :: as => do
    let b ← f a
    let bs ← option_traverse f as
    pure (b :: bs)

/-- calculate_energy (main.rs lines 41-53).  The source interleaves the
neighbour pixel reads with the accumulation; reading all neighbours
first and then folding performs the identical reads in the identical
order with the identical `Option` (panic) behaviour. -/
def calculate_energy (img : RgbImage) (x y : Nat) : Option Nat := do
  let c ← img.get_pixel x y
  let ns ← option_traverse (fun p => img.get_pixel p.x p.y) (get_von_neumann_neighbors img x y)
  pure (ns.foldl (energy_step c) 0)

/-- Row-major traversal order of the two nested loops
`for y in 0..height { for x in 0..width }`. -/
def grid_indices (w h : Nat) : List (Nat × Nat) :=
  (List.range h).flatMap (fun y => (List.range w).map (fun x => (x, y)))

/-- generate_energies_vector (main.rs lines 55-65). -/
def generate_energies_vector (img : RgbImage) : Option (List Nat) :=
  option_traverse (fun p => calculate_energy img p.1 p.2) (grid_indices img.width img.height)

/-- get_bottom_up_neighbors (main.rs lines 67-85): the DP predecessor
candidates of (x, y) in the row above, pushed in the order
directly-above, right-diagonal, left-diagonal. -/
def get_bottom_up_neighbors (img : RgbImage) (x y : Nat) : List Position :=
  if y = 0 then []
  else if x = 0 then [⟨x, y - 1⟩, ⟨x + 1, y - 1⟩]
  else if x = img.width - 1 then [⟨x, y - 1⟩, ⟨x - 1, y - 1⟩]
  else [⟨x, y - 1⟩, ⟨x + 1, y - 1⟩, ⟨x - 1, y - 1⟩]

/-- A DP table entry (struct Seam, main.rs lines 10-15). -/
structure Seam where
  posn : Position
  prev_posn : Option Position
  cost : Nat
deriving DecidableEq, Repr

/-- Rust's `Iterator::min_by_key`: the first element attaining the
minimal key (later elements replace the current best only on a strictly
smaller key); `none` on an empty iterator (where the source's
`.unwrap()` panics). -/
def min_by_key {α : Type} (key : α → Nat) : List α → Option α
  | [] => none
  | a :: as => some (as.foldl (fun best c => if key c < key best then c else best) a)

/-- `bottom_up[(p.x + p.y * width) as usize]`: `Vec` indexing, which in
Rust panics out of range; the theorems establish the in-range cases, and
out-of-range reads yield the default entry. -/
def seam_at (bu : List Seam) (w : Nat) (p : Position) : Seam :=
  bu.getD (p.x + p.y * w) ⟨⟨0, 0⟩, none, 0⟩

/-- Body of the recursive case of generate_bottom_up_vector
(main.rs lines 97-101), producing the cell appended for (x, y).
`(...).getD ⟨0,0⟩` models the `.unwrap()` (for y ≥ 1 the candidate list
is never empty). -/
def bu_next_cell (img : RgbImage) (energies : List Nat) (bu : List Seam) (x y : Nat) :
    Seam :=
  let prev_posn :=
    (min_by_key (fun p => (seam_at bu img.width p).cost)
      (get_bottom_up_neighbors img x y)).getD ⟨0, 0⟩
  let cost := u32_add (energies.getD (x + y * img.width) 0) (seam_at bu img.width prev_posn).cost
  ⟨⟨x, y⟩, some prev_posn, cost⟩

/-- generate_bottom_up_vector (main.rs lines 87-105): base row 0 first,
then rows 1..height appended cell by cell. -/
def generate_bottom_up_vector (img : RgbImage) (energies : List Nat) : List Seam :=
  let base := (List.range img.width).map
    (fun x => (⟨⟨x, 0⟩, none, energies.getD x 0⟩ : Seam))
  (List.range (img.height - 1)).foldl
    (fun bu i =>
      (List.range img.width).foldl
        (fun bu2 x => bu2 ++ [bu_next_cell img energies bu2 x (i + 1)]) bu)
    base

/-- determine_best_seam (main.rs lines 107-110): first minimum-cost cell
of the bottom-row slice; `none` models the `.unwrap()` panic on an empty
slice. -/
def determine_best_seam (img : RgbImage) (bu : List Seam) : Option Seam :=
  min_by_key (fun s => s.cost) (bu.drop (img.width * (img.height - 1)))

/-- Predecessor-link walk of seam_to_position_vector (main.rs lines
116-119).  The Rust `while let` has no structural bound; the walk is run
with fuel, and the theorems show every walk on a generated table from a
cell in row y takes exactly y steps, below any fuel ≥ y. -/
def seam_walk (img : RgbImage) (bu : List Seam) : Nat → Seam → List Position
  | 0, _ => []
  | fuel + 1, s =>
    match s.prev_posn with
    | none => []
    | some p => p :: seam_walk img bu fuel (seam_at bu img.width p)

/-- seam_to_position_vector (main.rs lines 112-122): collect the seam's
position and its predecessor chain, then reverse to top-to-bottom
order. -/
def seam_to_position_vector (img : RgbImage) (bu : List Seam) (s : Seam) : List Position :=
  (s.posn :: seam_walk img bu bu.length s).reverse

/-- One output row of cut_seam's copy loop (main.rs lines 131-139):
every source column except the deleted one, left to right. -/
def cut_row (img : RgbImage) (y c : Nat) : List Pixel :=
  ((List.range img.width).filter (fun ox => ox ≠ c)).map (fun ox => img.pixelD ox y)

/-- The fresh image built by cut_seam (main.rs lines 129-141):
`RgbImage::new(width-1, height)` is zero-initialised and then each row
with an available seam position is overwritten via `put_pixel`, row-major. -/
def remove_seam (img : RgbImage) (posns : List Position) : RgbImage :=
  { width := img.width - 1
    height := img.height
    pixels := (List.range img.height).flatMap (fun y =>
      match posns.get? y with
      | some p => cut_row img y p.x
      | none => List.replicate (img.width - 1) ⟨0, 0, 0⟩) }

/-- cut_seam (main.rs lines 124-142). -/
def cut_seam (old_img : RgbImage) (bu : List Seam) : Option RgbImage := do
  let seam ← determine_best_seam old_img bu
  pure (remove_seam old_img (seam_to_position_vector old_img bu seam))

/-- One iteration of the carving loop in main (main.rs lines 183-187). -/
def carve_step (img : RgbImage) : Option RgbImage := do
  let energies ← generate_energies_vector img
  cut_seam img (generate_bottom_up_vector img energies)

/-- The carving loop of main (main.rs lines 183-187): `columns_to_carve`
iterations, each replacing the image. -/
def carve (img : RgbImage) : Nat → Option RgbImage
  | 0 => some img
  | n + 1 => do
    let img2 ← carve_step img
    carve img2 n

/-! ### Properties of `min_by_key` (Rust `Iterator::min_by_key`) -/

/-- The underlying fold of `min_by_key` on a nonempty list. -/
def fold_best {α : Type} (key : α → Nat) (a : α) (as : List α) : α :=
  as.foldl (fun best c => if key c < key best then c else best) a

/-- Minimum of the keys over a nonempty list. -/
def fold_min {α : Type} (key : α → Nat) (a : α) (as : List α) : Nat :=
  as.foldl (fun m b => min m (key b)) (key a)

/-- Modelled from the spec: "the first candidate achieving the strict
minimum cumulative cost seen so far (ties broken by this fixed
evaluation order)" — the first list element whose key equals the
minimum of the keys. -/
def spec_first_min {α : Type} (key : α → Nat) : List α → Option α
  | [] => none
  | a :: as => (a :: as).find? (fun b => key b == fold_min key a as)

/-! ### Recursive characterisation of the DP table -/

/-- Cumulative `u32` cost of DP cell (x, y), by recursion on the row;
mirrors the cost computed by generate_bottom_up_vector. -/
def dp_costs (img : RgbImage) (es : List Nat) : Nat → Nat → Nat
  | 0, x => es.getD x 0
  | y + 1, x =>
    let p := (min_by_key (fun q : Position => dp_costs img es y q.x)
      (get_bottom_up_neighbors img x (y + 1))).getD ⟨0, 0⟩
    u32_add (es.getD (x + (y + 1) * img.width) 0) (dp_costs img es y p.x)

/-- The predecessor recorded for DP cell (x, y), y ≥ 1. -/
def dp_prev (img : RgbImage) (es : List Nat) (x y : Nat) : Position :=
  (min_by_key (fun q : Position => dp_costs img es (y - 1) q.x)
    (get_bottom_up_neighbors img x y)).getD ⟨0, 0⟩

/-- Cumulative cost along the same chosen predecessor chain but with
exact (unbounded) addition; equals `dp_costs` when no overflow occurs. -/
def dp_costs_exact (img : RgbImage) (es : List Nat) : Nat → Nat → Nat
  | 0, x => es.getD x 0
  | y + 1, x =>
    es.getD (x + (y + 1) * img.width) 0
      + dp_costs_exact img es y (dp_prev img es x (y + 1)).x

/-- The DP cell generate_bottom_up_vector appends for (x, y). -/
def bu_cell (img : RgbImage) (es : List Nat) (x y : Nat) : Seam :=
  if y = 0 then ⟨⟨x, 0⟩, none, es.getD x 0⟩
  else ⟨⟨x, y⟩, some (dp_prev img es x y), dp_costs img es y x⟩

/-- Row-major list of the DP cells of rows 0..h-1. -/
def bu_table (img : RgbImage) (es : List Nat) (h : Nat) : List Seam :=
  (List.range h).flatMap (fun y => (List.range img.width).map (fun x => bu_cell img es x y))

/-! ### Seam paths -/

/-- Columns in adjacent rows of a connected path differ by at most 1. -/
def cols_adjacent (a b : Nat) : Prop := a ≤ b + 1 ∧ b ≤ a + 1

instance (a b : Nat) : Decidable (cols_adjacent a b) :=
  inferInstanceAs (Decidable (_ ∧ _))

/-- Step relation of a top-to-bottom seam path: the next position is one
row further down and at most one column away. -/
def seam_step (p q : Position) : Prop := q.y = p.y + 1 ∧ cols_adjacent p.x q.x

instance (p q : Position) : Decidable (seam_step p q) :=
  inferInstanceAs (Decidable (_ ∧ _))

/-- `PathUp W x y cols`: `cols` lists, bottom row first, the columns of
a connected column path from row 0 up to row y ending at column x, all
columns within [0, W). -/
inductive PathUp (W : Nat) : Nat → Nat → List Nat → Prop
  | base (x : Nat) (hx : x < W) : PathUp W x 0 [x]
  | step (x x2 y : Nat) (cs : List Nat) (hx : x < W) (adj : cols_adjacent x2 x)
      (h : PathUp W x2 y cs) : PathUp W x (y + 1) (x :: cs)

/-- Energy sum of a bottom-first column list whose head lies in row y. -/
def path_sum_up (es : List Nat) (W : Nat) : Nat → List Nat → Nat
  | _, [] => 0
  | y, c :: cs => es.getD (c + y * W) 0 + path_sum_up es W (y - 1) cs

/-- Energy sum of a top-first column list whose head lies in row r. -/
def path_sum_from (es : List Nat) (W : Nat) : Nat → List Nat → Nat
  | _, [] => 0
  | r, c :: cs => es.getD (c + r * W) 0 + path_sum_from es W (r + 1) cs

/-- Sum of the energies at a list of positions. -/
def posn_energy_sum (es : List Nat) (W : Nat) (ps : List Position) : Nat :=
  (ps.map (fun p => es.getD (p.x + p.y * W) 0)).sum

/-- The rows of the positions are r, r+1, r+2, ... in order. -/
def rows_from : Nat → List Position → Prop
  | _, [] => True
  | r, p :: ps => p.y = r ∧ rows_from (r + 1) ps

/-! ### The path reconstructed by following the recorded predecessors -/

/-- Chain of recorded predecessor positions from cell (x, y) down to
row 0 (walk order: row y-1 first). -/
def prev_chain (img : RgbImage) (es : List Nat) : Nat → Nat → List Position
  | _, 0 => []
  | x, y + 1 =>
    dp_prev img es x (y + 1) :: prev_chain img es (dp_prev img es x (y + 1)).x y

/-- The top-to-bottom path reconstructed from cell (x, y). -/
def top_path (img : RgbImage) (es : List Nat) (x y : Nat) : List Position :=
  (prev_chain img es x y).reverse ++ [⟨x, y⟩]

/-! ### Energy computation: exactness, bounds, success characterisation -/

/-- One neighbour's step of the energy accumulation with exact
(unbounded) addition, the reference for the no-overflow claim. -/
def energy_step_exact (c : Pixel) (e : Nat) (n : Pixel) : Nat := e + pixel_contrib c n

/-- calculate_energy with exact accumulation in place of the wrapping
`u32` additions. -/
def calculate_energy_exact (img : RgbImage) (x y : Nat) : Option Nat := do
  let c ← img.get_pixel x y
  let ns ← option_traverse (fun p => img.get_pixel p.x p.y) (get_von_neumann_neighbors img x y)
  pure (ns.foldl (energy_step_exact c) 0)

/-! ### Spec-side neighbour set and energy formula -/

/-- Modelled from the spec: the in-bounds von-Neumann neighbours of
pixel (x, y) — left, right, up, down, each kept only when inside the
grid. -/
def inbounds_vn_neighbors (W H x y : Nat) : List Position :=
  (if 1 ≤ x then [⟨x - 1, y⟩] else []) ++ (if x + 1 < W then [⟨x + 1, y⟩] else [])
    ++ (if 1 ≤ y then [⟨x, y - 1⟩] else []) ++ (if y + 1 < H then [⟨x, y + 1⟩] else [])

/-- Modelled from the spec: energy(p) = sum over the in-bounds
von-Neumann neighbours n of the squared per-channel differences between
p and n, summed across the three channels. -/
def vn_energy_spec (img : RgbImage) (x y : Nat) : Nat :=
  ((inbounds_vn_neighbors img.width img.height x y).map
    (fun p => pixel_contrib (img.pixelD x y) (img.pixelD p.x p.y))).sum

/-- Corner pixel of a W x H grid. -/
def is_corner (W H x y : Nat) : Prop := (x = 0 ∨ x = W - 1) ∧ (y = 0 ∨ y = H - 1)

/-- Strictly interior pixel of a W x H grid. -/
def is_interior (W H x y : Nat) : Prop := 1 ≤ x ∧ x + 1 < W ∧ 1 ≤ y ∧ y + 1 < H

/-- Pixel on the boundary of a W x H grid but not at a corner. -/
def is_boundary_noncorner (W H x y : Nat) : Prop :=
  (x = 0 ∨ x = W - 1 ∨ y = 0 ∨ y = H - 1) ∧ ¬ is_corner W H x y

instance (W H x y : Nat) : Decidable (is_corner W H x y) :=
  inferInstanceAs (Decidable (_ ∧ _))

instance (W H x y : Nat) : Decidable (is_interior W H x y) :=
  inferInstanceAs (Decidable (_ ∧ _))

instance (W H x y : Nat) : Decidable (is_boundary_noncorner W H x y) :=
  inferInstanceAs (Decidable (_ ∧ _))

/-! ### Rows of an image and the effect of remove_seam -/

/-- Row y of an image as the list of its pixels, left to right. -/
def image_row (img : RgbImage) (y : Nat) : List Pixel :=
  (List.range img.width).map (fun x => img.pixelD x y)

/-! ### Concrete images used by the witnesses -/

/-- A well-formed 2 x 2 image with four distinct colours. -/
def wimg2 : RgbImage := ⟨2, 2, [⟨255, 0, 0⟩, ⟨0, 0, 255⟩, ⟨0, 255, 0⟩, ⟨255, 255, 255⟩]⟩

/-- A well-formed all-black 2 x 2 image. -/
def zimg2 : RgbImage := ⟨2, 2, [⟨0, 0, 0⟩, ⟨0, 0, 0⟩, ⟨0, 0, 0⟩, ⟨0, 0, 0⟩]⟩

/-- Modelled from the spec: the predecessor candidates of cell (x, y) in
the fixed evaluation order directly-above, right-diagonal,
left-diagonal, restricted to in-bounds columns. -/
def spec_pred_candidates (W x y : Nat) : List Position :=
  [⟨x, y - 1⟩] ++ (if x + 1 < W then [⟨x + 1, y - 1⟩] else [])
    ++ (if 1 ≤ x then [(⟨x - 1, y - 1⟩ : Position)] else [])

/-! ### A tall two-column grid on which the u32 cumulative cost wraps -/

/-- Vertical stripes: column 0 black, column 1 white, height h. -/
def stripes (h : Nat) : RgbImage :=
  ⟨2, h, (List.range (2 * h)).map
    (fun i => if i % 2 = 0 then (⟨0, 0, 0⟩ : Pixel) else ⟨255, 255, 255⟩)⟩

theorem min_by_key_cons {α : Type} (key : α → Nat) (a : α) (as : List α) :
    min_by_key key (a :: as) = some (fold_best key a as) := rfl

theorem fold_best_cons {α : Type} (key : α → Nat) (a c : α) (as : List α) :
    fold_best key a (c :: as) = fold_best key (if key c < key a then c else a) as := rfl

theorem fold_min_cons {α : Type} (key : α → Nat) (a c : α) (as : List α) :
    fold_min key a (c :: as) = fold_min key (if key c < key a then c else a) as := by
  have h : min (key a) (key c) = key (if key c < key a then c else a) := by
    by_cases h2 : key c < key a
    · rw [if_pos h2]; omega
    · rw [if_neg h2]; omega
  simp [fold_min, h]

theorem fold_best_mem {α : Type} (key : α → Nat) (as : List α) :
    ∀ a, fold_best key a as ∈ a :: as := by
  induction as with
  | nil => intro a; simp [fold_best]
  | cons c cs ih =>
    intro a
    rw [fold_best_cons]
    by_cases hlt : key c < key a
    · simp only [hlt, if_true]
      rcases List.mem_cons.mp (ih c) with h | h
      · simp [h]
      · simp [h]
    · simp only [hlt, if_false]
      rcases List.mem_cons.mp (ih a) with h | h
      · simp [h]
      · simp [h]

theorem key_fold_best {α : Type} (key : α → Nat) (as : List α) :
    ∀ a, key (fold_best key a as) = fold_min key a as := by
  induction as with
  | nil => intro a; simp [fold_best, fold_min]
  | cons c cs ih =>
    intro a
    rw [fold_best_cons, fold_min_cons]
    exact ih _

theorem fold_min_le {α : Type} (key : α → Nat) (as : List α) :
    ∀ a, ∀ b ∈ a :: as, fold_min key a as ≤ key b := by
  induction as with
  | nil => intro a b hb; simp at hb; simp [fold_min, hb]
  | cons c cs ih =>
    intro a b hb
    rw [fold_min_cons]
    have hminle : key (if key c < key a then c else a) ≤ key a ∧
        key (if key c < key a then c else a) ≤ key c := by
      by_cases hlt : key c < key a <;> simp [hlt] <;> omega
    have hhead : fold_min key (if key c < key a then c else a) cs ≤
        key (if key c < key a then c else a) :=
      ih _ _ (List.mem_cons_self _ _)
    rcases List.mem_cons.mp hb with h | h
    · subst h; exact le_trans hhead hminle.1
    rcases List.mem_cons.mp h with h | h
    · subst h; exact le_trans hhead hminle.2
    · exact ih _ _ (List.mem_cons.mpr (Or.inr h))

theorem fold_best_eq_head {α : Type} (key : α → Nat) (as : List α) :
    ∀ a, (∀ b ∈ as, ¬ key b < key a) → fold_best key a as = a := by
  induction as with
  | nil => intro a _; rfl
  | cons c cs ih =>
    intro a h
    rw [fold_best_cons]
    have hc : ¬ key c < key a := h c (List.mem_cons_self _ _)
    simp only [hc, if_false]
    exact ih a (fun b hb => h b (List.mem_cons.mpr (Or.inr hb)))

theorem min_by_key_eq_spec_first_min {α : Type} (key : α → Nat) :
    ∀ l : List α, min_by_key key l = spec_first_min key l := by
  have main : ∀ (as : List α) (a : α),
      (a :: as).find? (fun b => key b == fold_min key a as) = some (fold_best key a as) := by
    intro as
    induction as with
    | nil =>
      intro a
      simp [List.find?_cons, fold_min, fold_best]
    | cons c cs ih =>
      intro a
      rw [fold_min_cons, fold_best_cons]
      set a2 := if key c < key a then c else a with ha2
      have hK_le_a2 : fold_min key a2 cs ≤ key a2 := fold_min_le key cs a2 a2 (List.mem_cons_self _ _)
      by_cases hlt : key c < key a
      · have ha2c : a2 = c := by simp [ha2, hlt]
        have hKa : ¬ (key a = fold_min key a2 cs) := by
          rw [ha2c] at hK_le_a2 ⊢; omega
        rw [List.find?_cons_of_neg _ (by simpa using hKa), ha2c]
        exact ih c
      · have ha2a : a2 = a := by simp [ha2, hlt]
        rw [ha2a] at hK_le_a2 ⊢
        by_cases heq : key a = fold_min key a cs
        · rw [List.find?_cons_of_pos _ (by simpa using heq)]
          have : fold_best key a cs = a := by
            apply fold_best_eq_head
            intro b hb
            have := fold_min_le key cs a b (List.mem_cons.mpr (Or.inr hb))
            omega
          rw [this]
        · have hKlt : fold_min key a cs < key a := lt_of_le_of_ne hK_le_a2 (by omega)
          have hKc : key c ≠ fold_min key a cs := by omega
          have hfa : ¬ (key a = fold_min key a cs) := heq
          rw [List.find?_cons_of_neg _ (by simpa using hfa),
            List.find?_cons_of_neg _ (by simpa using hKc)]
          have := ih a
          rw [List.find?_cons_of_neg _ (by simpa using hfa)] at this
          exact this
  intro l
  cases l with
  | nil => rfl
  | cons a as => rw [min_by_key_cons, spec_first_min, main]

theorem fold_best_congr {α : Type} (k1 k2 : α → Nat) (as : List α) :
    ∀ a, (∀ b ∈ a :: as, k1 b = k2 b) → fold_best k1 a as = fold_best k2 a as := by
  induction as with
  | nil => intro a _; rfl
  | cons c cs ih =>
    intro a h
    rw [fold_best_cons, fold_best_cons]
    have hc : k1 c = k2 c := h c (by simp)
    have ha : k1 a = k2 a := h a (by simp)
    rw [hc, ha]
    apply ih
    intro b hb
    rcases List.mem_cons.mp hb with hb | hb
    · subst hb; by_cases hlt : k2 c < k2 a <;> simp [hlt, hc, ha]
    · exact h b (by simp [hb])

theorem min_by_key_congr {α : Type} (k1 k2 : α → Nat) (l : List α)
    (h : ∀ b ∈ l, k1 b = k2 b) : min_by_key k1 l = min_by_key k2 l := by
  cases l with
  | nil => rfl
  | cons a as => rw [min_by_key_cons, min_by_key_cons, fold_best_congr k1 k2 as a h]

theorem min_by_key_le {α : Type} (key : α → Nat) (l : List α) (m : α)
    (hm : min_by_key key l = some m) : ∀ b ∈ l, key m ≤ key b := by
  cases l with
  | nil => simp [min_by_key] at hm
  | cons a as =>
    rw [min_by_key_cons, Option.some.injEq] at hm
    intro b hb
    rw [← hm, key_fold_best key as a]
    exact fold_min_le key as a b hb

theorem min_by_key_mem {α : Type} (key : α → Nat) (l : List α) (m : α)
    (hm : min_by_key key l = some m) : m ∈ l := by
  cases l with
  | nil => simp [min_by_key] at hm
  | cons a as =>
    rw [min_by_key_cons, Option.some.injEq] at hm
    rw [← hm]
    exact fold_best_mem key as a

theorem min_by_key_isSome {α : Type} (key : α → Nat) (a : α) (as : List α) :
    min_by_key key (a :: as) = some (fold_best key a as) := rfl

/-! ### Generic list lemmas used by the table characterisation -/

theorem find?_eq_some_first {α : Type} {l : List α} {p : α → Bool} {a : α}
    (h : l.find? p = some a) :
    ∃ i, l.get? i = some a ∧ p a = true ∧
      ∀ j, j < i → ∀ b, l.get? j = some b → p b = false := by
  induction l with
  | nil => simp at h
  | cons c cs ih =>
    by_cases hc : p c
    · rw [List.find?_cons_of_pos _ hc, Option.some.injEq] at h
      exact ⟨0, by simp [← h], by rw [← h]; exact hc, fun j hj => by omega⟩
    · rw [List.find?_cons_of_neg _ (by simpa using hc)] at h
      obtain ⟨i, hget, hp, hbefore⟩ := ih h
      refine ⟨i + 1, by simpa using hget, hp, ?_⟩
      intro j hj b hb
      cases j with
      | zero =>
        simp at hb
        rw [← hb]
        simpa using hc
      | succ j2 =>
        exact hbefore j2 (by omega) b (by simpa using hb)

theorem flat_length {α β : Type} {f : α → List β} {L : Nat} :
    ∀ {l : List α}, (∀ a ∈ l, (f a).length = L) → (l.flatMap f).length = l.length * L := by
  intro l
  induction l with
  | nil => intro _; simp
  | cons a as ih =>
    intro h
    simp only [List.flatMap_cons, List.length_append, List.length_cons]
    rw [h a (by simp), ih (fun b hb => h b (by simp [hb]))]
    ring

theorem flat_get? {α β : Type} {f : α → List β} {L : Nat} :
    ∀ {l : List α}, (∀ a ∈ l, (f a).length = L) →
      ∀ {k x : Nat}, x < L → ∀ a, l.get? k = some a →
        (l.flatMap f).get? (k * L + x) = (f a).get? x := by
  intro l
  induction l with
  | nil => intro _ k x _ a ha; simp at ha
  | cons c cs ih =>
    intro h k x hx a ha
    cases k with
    | zero =>
      have hac : c = a := by simpa using ha
      subst hac
      simp only [List.flatMap_cons, Nat.zero_mul, Nat.zero_add]
      rw [List.get?_append]
      rw [h c (by simp)]
      exact hx
    | succ k2 =>
      have ha2 : cs.get? k2 = some a := by simpa using ha
      have hclen : (f c).length = L := h c (by simp)
      have hmul : (k2 + 1) * L = k2 * L + L := by ring
      simp only [List.flatMap_cons]
      rw [List.get?_append_right (by rw [hclen]; omega)]
      rw [hclen]
      have harith : (k2 + 1) * L + x - L = k2 * L + x := by omega
      rw [harith]
      exact ih (fun b hb => h b (by simp [hb])) hx a ha2

theorem option_traverse_eq_some {α β : Type} {f : α → Option β} {g : α → β} :
    ∀ {l : List α}, (∀ a ∈ l, f a = some (g a)) → option_traverse f l = some (l.map g) := by
  intro l
  induction l with
  | nil => intro _; rfl
  | cons a as ih =>
    intro h
    simp only [option_traverse, h a (by simp), Option.bind_eq_bind, Option.some_bind,
      ih (fun b hb => h b (by simp [hb])), List.map_cons]
    rfl

theorem option_traverse_length {α β : Type} {f : α → Option β} :
    ∀ {l : List α} {r : List β}, option_traverse f l = some r → r.length = l.length := by
  intro l
  induction l with
  | nil => intro r h; simp only [option_traverse, Option.some.injEq] at h; simp [← h]
  | cons a as ih =>
    intro r h
    simp only [option_traverse, Option.bind_eq_bind] at h
    cases hfa : f a with
    | none => rw [hfa] at h; simp at h
    | some b =>
      rw [hfa] at h
      simp only [Option.some_bind] at h
      cases hrest : option_traverse f as with
      | none => rw [hrest] at h; simp at h
      | some bs =>
        rw [hrest] at h
        have h2 : b :: bs = r := by simpa [Option.pure_def] using h
        rw [← h2]
        simp [ih hrest]

theorem option_traverse_get? {α β : Type} {f : α → Option β} :
    ∀ {l : List α} {r : List β}, option_traverse f l = some r →
      ∀ {i : Nat} {a : α}, l.get? i = some a → r.get? i = f a := by
  intro l
  induction l with
  | nil => intro r _ i a ha; simp at ha
  | cons c cs ih =>
    intro r h i a ha
    simp only [option_traverse, Option.bind_eq_bind] at h
    cases hfc : f c with
    | none => rw [hfc] at h; simp at h
    | some b =>
      rw [hfc] at h
      simp only [Option.some_bind] at h
      cases hrest : option_traverse f cs with
      | none => rw [hrest] at h; simp at h
      | some bs =>
        rw [hrest] at h
        have h2 : b :: bs = r := by simpa [Option.pure_def] using h
        cases i with
        | zero =>
          have hac : c = a := by simpa using ha
          subst hac
          rw [← h2]
          simp [hfc]
        | succ i2 =>
          have ha2 : cs.get? i2 = some a := by simpa using ha
          rw [← h2]
          simpa using ih hrest ha2

theorem option_traverse_mem_some {α β : Type} {f : α → Option β} :
    ∀ {l : List α} {r : List β}, option_traverse f l = some r →
      ∀ a ∈ l, ∃ b, f a = some b := by
  intro l r h a ha
  obtain ⟨i, hi⟩ := List.get?_of_mem ha
  have h2 := option_traverse_get? h hi
  cases hfa : f a with
  | none =>
    rw [hfa] at h2
    have hlen := option_traverse_length h
    have hlt : i < l.length := by
      by_contra hc
      push_neg at hc
      rw [List.get?_eq_none.mpr hc] at hi
      simp at hi
    rw [List.get?_eq_none] at h2
    omega
  | some b => exact ⟨b, rfl⟩

theorem dp_costs_succ (img : RgbImage) (es : List Nat) (y x : Nat) :
    dp_costs img es (y + 1) x
      = u32_add (es.getD (x + (y + 1) * img.width) 0)
          (dp_costs img es y (dp_prev img es x (y + 1)).x) := by
  simp [dp_costs, dp_prev]

theorem bu_cell_cost (img : RgbImage) (es : List Nat) (x y : Nat) :
    (bu_cell img es x y).cost = dp_costs img es y x := by
  cases y with
  | zero => simp [bu_cell, dp_costs]
  | succ y2 => simp [bu_cell]

theorem bu_cell_posn (img : RgbImage) (es : List Nat) (x y : Nat) :
    (bu_cell img es x y).posn = ⟨x, y⟩ := by
  cases y with
  | zero => simp [bu_cell]
  | succ y2 => simp [bu_cell]

theorem getD_eq_get? {α : Type} (l : List α) (n : Nat) (d : α) :
    l.getD n d = (l.get? n).getD d := by
  induction l generalizing n with
  | nil => cases n <;> rfl
  | cons a as ih => cases n with
    | zero => rfl
    | succ n2 => simpa using ih n2

theorem getD_append_left {α : Type} (l1 l2 : List α) (n : Nat) (d : α)
    (h : n < l1.length) : (l1 ++ l2).getD n d = l1.getD n d := by
  rw [getD_eq_get?, getD_eq_get?, List.get?_append h]

/-! ### Geometry of the DP predecessor candidates -/

theorem bu_neighbors_ne_nil (img : RgbImage) (x y : Nat) (hy : 1 ≤ y) :
    get_bottom_up_neighbors img x y ≠ [] := by
  unfold get_bottom_up_neighbors
  rw [if_neg (by omega : ¬ y = 0)]
  by_cases hx0 : x = 0
  · rw [if_pos hx0]; simp
  · rw [if_neg hx0]
    by_cases hxW : x = img.width - 1
    · rw [if_pos hxW]; simp
    · rw [if_neg hxW]; simp

theorem bu_neighbors_sound (img : RgbImage) (x y : Nat) (hW : 2 ≤ img.width)
    (hx : x < img.width) (hy : 1 ≤ y) :
    ∀ p ∈ get_bottom_up_neighbors img x y,
      p.y = y - 1 ∧ p.x < img.width ∧ p.x ≤ x + 1 ∧ x ≤ p.x + 1 := by
  intro p hp
  unfold get_bottom_up_neighbors at hp
  rw [if_neg (by omega : ¬ y = 0)] at hp
  by_cases hx0 : x = 0
  · rw [if_pos hx0] at hp
    subst hx0
    simp only [List.mem_cons, List.not_mem_nil, or_false] at hp
    rcases hp with rfl | rfl
    · exact ⟨rfl, by show (0 : Nat) < img.width; omega,
        by show (0 : Nat) ≤ 0 + 1; omega, by show (0 : Nat) ≤ 0 + 1; omega⟩
    · exact ⟨rfl, by show 0 + 1 < img.width; omega,
        by show 0 + 1 ≤ 0 + 1; omega, by show (0 : Nat) ≤ 0 + 1 + 1; omega⟩
  · rw [if_neg hx0] at hp
    by_cases hxW : x = img.width - 1
    · rw [if_pos hxW] at hp
      simp only [List.mem_cons, List.not_mem_nil, or_false] at hp
      rcases hp with rfl | rfl
      · exact ⟨rfl, by show x < img.width; omega,
          by show x ≤ x + 1; omega, by show x ≤ x + 1; omega⟩
      · exact ⟨rfl, by show x - 1 < img.width; omega,
          by show x - 1 ≤ x + 1; omega, by show x ≤ x - 1 + 1; omega⟩
    · rw [if_neg hxW] at hp
      simp only [List.mem_cons, List.not_mem_nil, or_false] at hp
      rcases hp with rfl | rfl | rfl
      · exact ⟨rfl, by show x < img.width; omega,
          by show x ≤ x + 1; omega, by show x ≤ x + 1; omega⟩
      · exact ⟨rfl, by show x + 1 < img.width; omega,
          by show x + 1 ≤ x + 1; omega, by show x ≤ x + 1 + 1; omega⟩
      · exact ⟨rfl, by show x - 1 < img.width; omega,
          by show x - 1 ≤ x + 1; omega, by show x ≤ x - 1 + 1; omega⟩

theorem bu_neighbors_complete (img : RgbImage) (x y c : Nat) (hW : 2 ≤ img.width)
    (hx : x < img.width) (hy : 1 ≤ y) (hc : c < img.width)
    (h1 : c ≤ x + 1) (h2 : x ≤ c + 1) :
    (⟨c, y - 1⟩ : Position) ∈ get_bottom_up_neighbors img x y := by
  unfold get_bottom_up_neighbors
  rw [if_neg (by omega : ¬ y = 0)]
  by_cases hx0 : x = 0
  · rw [if_pos hx0]
    subst hx0
    have hcv : c = 0 ∨ c = 0 + 1 := by omega
    rcases hcv with rfl | rfl <;> simp
  · rw [if_neg hx0]
    by_cases hxW : x = img.width - 1
    · rw [if_pos hxW]
      have hcv : c = x ∨ c = x - 1 := by omega
      rcases hcv with rfl | rfl <;> simp
    · rw [if_neg hxW]
      have hcv : c = x ∨ c = x + 1 ∨ c = x - 1 := by omega
      rcases hcv with rfl | rfl | rfl <;> simp

theorem dp_prev_mem (img : RgbImage) (es : List Nat) (x y : Nat) (hy : 1 ≤ y) :
    dp_prev img es x y ∈ get_bottom_up_neighbors img x y := by
  unfold dp_prev
  cases hl : get_bottom_up_neighbors img x y with
  | nil => exact absurd hl (bu_neighbors_ne_nil img x y hy)
  | cons a as =>
    rw [min_by_key_cons]
    simp only [Option.getD_some]
    exact fold_best_mem _ as a

theorem dp_prev_min (img : RgbImage) (es : List Nat) (x y : Nat) (hy : 1 ≤ y) :
    ∀ q ∈ get_bottom_up_neighbors img x y,
      dp_costs img es (y - 1) (dp_prev img es x y).x ≤ dp_costs img es (y - 1) q.x := by
  intro q hq
  unfold dp_prev
  cases hl : get_bottom_up_neighbors img x y with
  | nil => exact absurd hl (bu_neighbors_ne_nil img x y hy)
  | cons a as =>
    rw [min_by_key_cons]
    simp only [Option.getD_some]
    have := min_by_key_le (fun q2 : Position => dp_costs img es (y - 1) q2.x)
      (a :: as) (fold_best _ a as) (min_by_key_cons _ a as) q (hl ▸ hq)
    exact this

/-! ### The generated table equals the recursive characterisation -/

theorem bu_table_length (img : RgbImage) (es : List Nat) (h : Nat) :
    (bu_table img es h).length = h * img.width := by
  unfold bu_table
  rw [flat_length (L := img.width) (fun a _ => by simp)]
  simp

theorem bu_table_get (img : RgbImage) (es : List Nat) (h x y : Nat)
    (hx : x < img.width) (hy : y < h) :
    (bu_table img es h).getD (x + y * img.width) ⟨⟨0, 0⟩, none, 0⟩ = bu_cell img es x y := by
  unfold bu_table
  have hg := flat_get? (l := List.range h)
    (f := fun y2 => (List.range img.width).map (fun x2 => bu_cell img es x2 y2))
    (L := img.width) (fun a _ => by simp) (k := y) (x := x) hx y (List.get?_range hy)
  rw [getD_eq_get?, Nat.add_comm x (y * img.width), hg]
  rw [List.get?_map, List.get?_range hx]
  rfl

theorem bu_table_append_row (img : RgbImage) (es : List Nat) (y : Nat) :
    bu_table img es (y + 1)
      = bu_table img es y ++ (List.range img.width).map (fun x => bu_cell img es x y) := by
  unfold bu_table
  rw [List.range_succ, List.flatMap_append]
  simp

theorem seam_at_bu_front (img : RgbImage) (es : List Nat) (y : Nat) (bu2 : List Seam)
    (p : Position) (hpx : p.x < img.width) (hpy : p.y < y) :
    seam_at (bu_table img es y ++ bu2) img.width p = bu_cell img es p.x p.y := by
  unfold seam_at
  have hmul : (p.y + 1) * img.width ≤ y * img.width := Nat.mul_le_mul_right _ (by omega)
  have hexp : (p.y + 1) * img.width = p.y * img.width + img.width := by ring
  have hidx : p.x + p.y * img.width < (bu_table img es y).length := by
    rw [bu_table_length]
    omega
  rw [getD_append_left _ _ _ _ hidx]
  exact bu_table_get img es y p.x p.y hpx hpy

theorem bu_next_cell_eq (img : RgbImage) (es : List Nat) (bu2 : List Seam) (x y : Nat)
    (hW : 2 ≤ img.width) (hx : x < img.width) (hy : 1 ≤ y) :
    bu_next_cell img es (bu_table img es y ++ bu2) x y = bu_cell img es x y := by
  obtain ⟨y2, rfl⟩ : ∃ y2, y = y2 + 1 := ⟨y - 1, by omega⟩
  have hkey : ∀ p ∈ get_bottom_up_neighbors img x (y2 + 1),
      (seam_at (bu_table img es (y2 + 1) ++ bu2) img.width p).cost
        = dp_costs img es y2 p.x := by
    intro p hp
    obtain ⟨hpy, hpx, _, _⟩ := bu_neighbors_sound img x (y2 + 1) hW hx hy p hp
    rw [seam_at_bu_front img es (y2 + 1) bu2 p hpx (by omega), bu_cell_cost, hpy]
    simp
  unfold bu_next_cell
  rw [min_by_key_congr _ (fun p : Position => dp_costs img es y2 p.x) _ hkey]
  have hprev : (min_by_key (fun p : Position => dp_costs img es y2 p.x)
      (get_bottom_up_neighbors img x (y2 + 1))).getD ⟨0, 0⟩ = dp_prev img es x (y2 + 1) := by
    unfold dp_prev
    simp
  rw [hprev]
  have hpmem := dp_prev_mem img es x (y2 + 1) hy
  show (⟨⟨x, y2 + 1⟩, some (dp_prev img es x (y2 + 1)),
    u32_add (es.getD (x + (y2 + 1) * img.width) 0)
      (seam_at (bu_table img es (y2 + 1) ++ bu2) img.width
        (dp_prev img es x (y2 + 1))).cost⟩ : Seam) = bu_cell img es x (y2 + 1)
  rw [hkey _ hpmem]
  rw [bu_cell, if_neg (by omega : ¬ y2 + 1 = 0), dp_costs_succ]

theorem bu_row_build (img : RgbImage) (es : List Nat) (y : Nat)
    (hW : 2 ≤ img.width) (hy : 1 ≤ y) :
    ∀ k, k ≤ img.width →
      (List.range k).foldl (fun bu2 x => bu2 ++ [bu_next_cell img es bu2 x y])
          (bu_table img es y)
        = bu_table img es y ++ (List.range k).map (fun x => bu_cell img es x y) := by
  intro k
  induction k with
  | zero => intro _; simp
  | succ k2 ih =>
    intro hk
    rw [List.range_succ, List.foldl_append, ih (by omega)]
    simp only [List.foldl_cons, List.foldl_nil]
    rw [bu_next_cell_eq img es _ k2 y hW (by omega) hy]
    rw [List.map_append]
    simp

theorem generate_eq_bu_table (img : RgbImage) (es : List Nat)
    (hWD : 2 ≤ img.width ∨ img.height ≤ 1) (hH : 1 ≤ img.height) :
    generate_bottom_up_vector img es = bu_table img es img.height := by
  have hbase : (List.range img.width).map
      (fun x => (⟨⟨x, 0⟩, none, es.getD x 0⟩ : Seam)) = bu_table img es 1 := by
    unfold bu_table
    rw [List.range_succ]
    simp only [List.range_zero, List.nil_append, List.flatMap_cons, List.flatMap_nil,
      List.append_nil]
    apply List.map_congr_left
    intro x _
    simp [bu_cell]
  have main : ∀ j, j ≤ img.height - 1 →
      (List.range j).foldl
        (fun bu i =>
          (List.range img.width).foldl
            (fun bu2 x => bu2 ++ [bu_next_cell img es bu2 x (i + 1)]) bu)
        (bu_table img es 1)
      = bu_table img es (j + 1) := by
    intro j
    induction j with
    | zero => intro _; simp
    | succ j2 ih =>
      intro hj
      have hW : 2 ≤ img.width := by
        rcases hWD with h | h
        · exact h
        · omega
      rw [List.range_succ, List.foldl_append, ih (by omega)]
      simp only [List.foldl_cons, List.foldl_nil]
      rw [bu_row_build img es (j2 + 1) hW (by omega) img.width le_rfl]
      rw [← bu_table_append_row]
  unfold generate_bottom_up_vector
  rw [hbase, main (img.height - 1) le_rfl]
  congr 1
  omega

theorem rows_from_append_one (q : Position) :
    ∀ (ps : List Position) (r : Nat),
      rows_from r (ps ++ [q]) ↔ rows_from r ps ∧ q.y = r + ps.length := by
  intro ps
  induction ps with
  | nil =>
    intro r
    show (q.y = r ∧ True) ↔ (True ∧ q.y = r + List.length [])
    constructor
    · rintro ⟨h, -⟩; exact ⟨trivial, by simpa using h⟩
    · rintro ⟨-, h⟩; exact ⟨by simpa using h, trivial⟩
  | cons p ps2 ih =>
    intro r
    show (p.y = r ∧ rows_from (r + 1) (ps2 ++ [q])) ↔ _
    rw [ih (r + 1)]
    show _ ↔ ((p.y = r ∧ rows_from (r + 1) ps2) ∧ q.y = r + (ps2.length + 1))
    constructor
    · rintro ⟨h1, h2, h3⟩; exact ⟨⟨h1, h2⟩, by omega⟩
    · rintro ⟨⟨h1, h2⟩, h3⟩; exact ⟨h1, h2, by omega⟩

theorem pathup_lt {W x y : Nat} {cols : List Nat} (h : PathUp W x y cols) : x < W := by
  cases h with
  | base x hx => exact hx
  | step x x2 y cs hx adj h2 => exact hx

theorem top_path_zero (img : RgbImage) (es : List Nat) (x : Nat) :
    top_path img es x 0 = [⟨x, 0⟩] := rfl

theorem prev_chain_succ (img : RgbImage) (es : List Nat) (x y : Nat) :
    prev_chain img es x (y + 1)
      = dp_prev img es x (y + 1) :: prev_chain img es (dp_prev img es x (y + 1)).x y := rfl

theorem position_eq_mk (p : Position) (c r : Nat) (hx : p.x = c) (hy : p.y = r) :
    p = ⟨c, r⟩ := by
  cases p with
  | mk a b =>
    have hx2 : a = c := hx
    have hy2 : b = r := hy
    subst hx2
    subst hy2
    rfl

theorem dp_prev_props (img : RgbImage) (es : List Nat) (x y : Nat)
    (hW : 2 ≤ img.width) (hx : x < img.width) :
    (dp_prev img es x (y + 1)).y = y ∧ (dp_prev img es x (y + 1)).x < img.width ∧
      cols_adjacent (dp_prev img es x (y + 1)).x x := by
  have hmem := dp_prev_mem img es x (y + 1) (by omega)
  obtain ⟨h1, h2, h3, h4⟩ := bu_neighbors_sound img x (y + 1) hW hx (by omega) _ hmem
  exact ⟨by simpa using h1, h2, ⟨h3, h4⟩⟩

theorem top_path_succ (img : RgbImage) (es : List Nat) (x y : Nat)
    (hpy : (dp_prev img es x (y + 1)).y = y) :
    top_path img es x (y + 1)
      = top_path img es (dp_prev img es x (y + 1)).x y ++ [⟨x, y + 1⟩] := by
  have hp : dp_prev img es x (y + 1) = ⟨(dp_prev img es x (y + 1)).x, y⟩ :=
    position_eq_mk _ _ _ rfl hpy
  unfold top_path
  rw [prev_chain_succ, List.reverse_cons, ← hp]

theorem top_path_spec (img : RgbImage) (es : List Nat) :
    ∀ y x, 2 ≤ img.width → x < img.width →
      (top_path img es x y).length = y + 1 ∧
      rows_from 0 (top_path img es x y) ∧
      List.Chain' seam_step (top_path img es x y) ∧
      (∀ p ∈ top_path img es x y, p.x < img.width) ∧
      (top_path img es x y).getLast? = some ⟨x, y⟩ ∧
      posn_energy_sum es img.width (top_path img es x y) = dp_costs_exact img es y x := by
  intro y
  induction y with
  | zero =>
    intro x hW hx
    rw [top_path_zero]
    refine ⟨rfl, ⟨rfl, trivial⟩, by simp, ?_, by simp, ?_⟩
    · intro p hp
      simp only [List.mem_singleton] at hp
      subst hp
      exact hx
    · simp [posn_energy_sum, dp_costs_exact]
  | succ y2 ih =>
    intro x hW hx
    obtain ⟨hpy, hpx, hadj⟩ := dp_prev_props img es x y2 hW hx
    obtain ⟨ihlen, ihrows, ihchain, ihbound, ihlast, ihsum⟩ :=
      ih (dp_prev img es x (y2 + 1)).x hW hpx
    rw [top_path_succ img es x y2 hpy]
    refine ⟨?_, ?_, ?_, ?_, ?_, ?_⟩
    · simp [ihlen]
    · rw [rows_from_append_one]
      refine ⟨ihrows, ?_⟩
      rw [ihlen]
      show y2 + 1 = 0 + (y2 + 1)
      omega
    · rw [List.chain'_append]
      refine ⟨ihchain, by simp, ?_⟩
      intro a ha b hb
      rw [ihlast] at ha
      simp only [Option.mem_def, Option.some.injEq] at ha
      simp only [List.head?_cons, Option.mem_def, Option.some.injEq] at hb
      subst ha
      subst hb
      exact ⟨rfl, hadj⟩
    · intro p hp
      rcases List.mem_append.mp hp with h | h
      · exact ihbound p h
      · simp only [List.mem_singleton] at h
        subst h
        exact hx
    · simp
    · unfold posn_energy_sum at ihsum ⊢
      rw [List.map_append, List.sum_append, ihsum]
      simp only [List.map_singleton, List.sum_singleton, dp_costs_exact]
      omega

theorem seam_walk_eq (img : RgbImage) (es : List Nat)
    (hWD : 2 ≤ img.width ∨ img.height ≤ 1) :
    ∀ y x fuel, x < img.width → y < img.height → y ≤ fuel →
      seam_walk img (bu_table img es img.height) fuel (bu_cell img es x y)
        = prev_chain img es x y := by
  intro y
  induction y with
  | zero =>
    intro x fuel hx hy hf
    cases fuel with
    | zero => rfl
    | succ f => simp [seam_walk, bu_cell, prev_chain]
  | succ y2 ih =>
    intro x fuel hx hy hf
    have hW : 2 ≤ img.width := by
      rcases hWD with h | h
      · exact h
      · omega
    obtain ⟨f2, rfl⟩ : ∃ f2, fuel = f2 + 1 := ⟨fuel - 1, by omega⟩
    obtain ⟨hpy, hpx, _⟩ := dp_prev_props img es x y2 hW hx
    have hcell : bu_cell img es x (y2 + 1)
        = ⟨⟨x, y2 + 1⟩, some (dp_prev img es x (y2 + 1)), dp_costs img es (y2 + 1) x⟩ := by
      rw [bu_cell, if_neg (by omega : ¬ y2 + 1 = 0)]
    rw [hcell]
    show dp_prev img es x (y2 + 1) ::
        seam_walk img (bu_table img es img.height) f2
          (seam_at (bu_table img es img.height) img.width (dp_prev img es x (y2 + 1)))
      = prev_chain img es x (y2 + 1)
    have hseam : seam_at (bu_table img es img.height) img.width (dp_prev img es x (y2 + 1))
        = bu_cell img es (dp_prev img es x (y2 + 1)).x y2 := by
      unfold seam_at
      rw [hpy]
      exact bu_table_get img es img.height _ y2 hpx (by omega)
    rw [hseam, ih _ f2 hpx (by omega) (by omega)]
    rfl

/-! ### Exactness of the u32 DP costs in the absence of overflow -/

theorem dp_costs_exact_bound (img : RgbImage) (es : List Nat) (E : Nat)
    (hE : ∀ i, es.getD i 0 ≤ E) :
    ∀ y x, dp_costs_exact img es y x ≤ (y + 1) * E := by
  intro y
  induction y with
  | zero =>
    intro x
    simpa [dp_costs_exact] using hE x
  | succ y2 ih =>
    intro x
    have h1 := hE (x + (y2 + 1) * img.width)
    have h2 := ih (dp_prev img es x (y2 + 1)).x
    have hm : (y2 + 1 + 1) * E = (y2 + 1) * E + E := by ring
    simp only [dp_costs_exact]
    omega

theorem dp_costs_eq_exact (img : RgbImage) (es : List Nat) (E : Nat)
    (hE : ∀ i, es.getD i 0 ≤ E) :
    ∀ y x, (y + 1) * E < 4294967296 → dp_costs img es y x = dp_costs_exact img es y x := by
  intro y
  induction y with
  | zero =>
    intro x _
    simp [dp_costs, dp_costs_exact]
  | succ y2 ih =>
    intro x hb
    have hm : (y2 + 1 + 1) * E = (y2 + 1) * E + E := by ring
    have hb2 : (y2 + 1) * E < 4294967296 := by omega
    rw [dp_costs_succ, ih _ hb2]
    have h1 := hE (x + (y2 + 1) * img.width)
    have h2 := dp_costs_exact_bound img es E hE y2 (dp_prev img es x (y2 + 1)).x
    show u32_add _ _ = _
    unfold u32_add
    rw [Nat.mod_eq_of_lt (by omega)]
    rfl

/-! ### The DP cost is a lower bound on every connected path's energy -/

theorem dp_costs_exact_le_path (img : RgbImage) (es : List Nat) (E : Nat)
    (hW : 2 ≤ img.width) (hE : ∀ i, es.getD i 0 ≤ E)
    (hM : img.height * E < 4294967296) :
    ∀ y x cols, y < img.height → PathUp img.width x y cols →
      dp_costs_exact img es y x ≤ path_sum_up es img.width y cols := by
  intro y
  induction y with
  | zero =>
    intro x cols hy hp
    cases hp with
    | base x hx =>
      simp [path_sum_up, dp_costs_exact]
  | succ y2 ih =>
    intro x cols hy hp
    cases hp with
    | step x x2 y cs hx adj h =>
      have hx2 : x2 < img.width := pathup_lt h
      have hmem : (⟨x2, y2⟩ : Position) ∈ get_bottom_up_neighbors img x (y2 + 1) := by
        have := bu_neighbors_complete img x (y2 + 1) x2 hW hx (by omega) hx2 adj.1 adj.2
        simpa using this
      have hminw := dp_prev_min img es x (y2 + 1) (by omega) _ hmem
      simp only [Nat.add_sub_cancel] at hminw
      have hmul : (y2 + 1 + 1) * E ≤ img.height * E :=
        Nat.mul_le_mul (by omega) (le_refl E)
      have hm : (y2 + 1 + 1) * E = (y2 + 1) * E + E := by ring
      have hb2 : (y2 + 1) * E < 4294967296 := by omega
      rw [dp_costs_eq_exact img es E hE y2 _ hb2, dp_costs_eq_exact img es E hE y2 _ hb2]
        at hminw
      have hih := ih x2 cs (by omega) h
      have hprevle : dp_costs_exact img es y2 (dp_prev img es x (y2 + 1)).x
          ≤ path_sum_up es img.width y2 cs := by
        have : dp_costs_exact img es y2 (⟨x2, y2⟩ : Position).x
            ≤ path_sum_up es img.width y2 cs := by
          show dp_costs_exact img es y2 x2 ≤ _
          exact hih
        omega
      show dp_costs_exact img es (y2 + 1) x ≤ path_sum_up es img.width (y2 + 1) (x :: cs)
      have hsum : path_sum_up es img.width (y2 + 1) (x :: cs)
          = es.getD (x + (y2 + 1) * img.width) 0 + path_sum_up es img.width y2 cs := by
        show es.getD (x + (y2 + 1) * img.width) 0
            + path_sum_up es img.width (y2 + 1 - 1) cs = _
        simp
      rw [hsum]
      simp only [dp_costs_exact]
      omega

/-! ### Top-to-bottom column lists versus bottom-first paths -/

theorem path_sum_from_append (es : List Nat) (W : Nat) (c : Nat) :
    ∀ (l : List Nat) (r : Nat),
      path_sum_from es W r (l ++ [c])
        = path_sum_from es W r l + es.getD (c + (r + l.length) * W) 0 := by
  intro l
  induction l with
  | nil =>
    intro r
    simp [path_sum_from]
  | cons d l2 ih =>
    intro r
    show es.getD (d + r * W) 0 + path_sum_from es W (r + 1) (l2 ++ [c]) = _
    rw [ih (r + 1)]
    show _ = es.getD (d + r * W) 0 + path_sum_from es W (r + 1) l2
        + es.getD (c + (r + (l2.length + 1)) * W) 0
    have : r + 1 + l2.length = r + (l2.length + 1) := by omega
    rw [this]
    omega

theorem pathup_of_valid (W : Nat) :
    ∀ (cols : List Nat) (c : Nat) (y : Nat),
      cols.length = y → (∀ d ∈ cols ++ [c], d < W) →
      List.Chain' cols_adjacent (cols ++ [c]) →
      PathUp W c y ((cols ++ [c]).reverse) := by
  intro cols
  induction cols using List.reverseRecOn with
  | nil =>
    intro c y hlen hb hc
    simp only [List.length_nil] at hlen
    subst hlen
    simpa using PathUp.base c (hb c (by simp))
  | append_singleton l d ih =>
    intro c y hlen hb hc
    simp only [List.length_append, List.length_singleton] at hlen
    rw [List.append_assoc] at hc hb
    rw [List.chain'_append] at hc
    have hadj : cols_adjacent d c := (List.chain'_cons.mp hc.2.1).1
    have hcl : List.Chain' cols_adjacent (l ++ [d]) := by
      refine List.chain'_append.mpr ⟨hc.1, by simp, ?_⟩
      intro a ha b hb2
      simp only [List.head?_cons, Option.mem_def, Option.some.injEq] at hb2
      subst hb2
      exact hc.2.2 a ha d (by simp)
    have hbound2 : ∀ e ∈ l ++ [d], e < W := by
      intro e he
      apply hb
      rw [← List.append_assoc]
      exact List.mem_append.mpr (Or.inl he)
    have hstep := ih d l.length rfl hbound2 hcl
    have hcW : c < W := hb c (by simp)
    have hgoal := PathUp.step c d l.length ((l ++ [d]).reverse) hcW hadj hstep
    have hrev : ((l ++ [d]) ++ [c]).reverse = c :: (l ++ [d]).reverse := by
      rw [List.reverse_append]
      rfl
    rw [hrev, ← hlen]
    exact hgoal

theorem path_sum_up_reverse (es : List Nat) (W : Nat) :
    ∀ (cols : List Nat) (y : Nat), cols.length = y + 1 →
      path_sum_up es W y cols.reverse = path_sum_from es W 0 cols := by
  intro cols
  induction cols using List.reverseRecOn with
  | nil => intro y hlen; simp at hlen
  | append_singleton l c ih =>
    intro y hlen
    simp only [List.length_append, List.length_singleton] at hlen
    have hrev : (l ++ [c]).reverse = c :: l.reverse := by
      rw [List.reverse_append]
      rfl
    rw [hrev, path_sum_from_append]
    show es.getD (c + y * W) 0 + path_sum_up es W (y - 1) l.reverse = _
    by_cases hl : l = []
    · subst hl
      simp only [List.length_nil] at hlen
      have hy0 : y = 0 := by omega
      subst hy0
      simp [path_sum_up, path_sum_from]
    · have hl1 : 1 ≤ l.length := List.length_pos.mpr hl
      rw [ih (y - 1) (by omega)]
      have hyl : 0 + l.length = y := by omega
      rw [hyl]
      omega

/-- The element returned by `min_by_key` is the first one attaining the
minimal key: every earlier element has a strictly larger key. -/
theorem min_by_key_first_min {α : Type} (key : α → Nat) (l : List α) (m : α)
    (hm : min_by_key key l = some m) :
    ∃ i, l.get? i = some m ∧ (∀ b ∈ l, key m ≤ key b) ∧
      ∀ j, j < i → ∀ b, l.get? j = some b → key m < key b := by
  cases l with
  | nil => simp [min_by_key] at hm
  | cons a as =>
    have hspec := min_by_key_eq_spec_first_min key (a :: as)
    rw [hm] at hspec
    have hfind : (a :: as).find? (fun b => key b == fold_min key a as) = some m := hspec.symm
    obtain ⟨i, hget, hp, hbefore⟩ := find?_eq_some_first hfind
    have hK : key m = fold_min key a as := by simpa using hp
    refine ⟨i, hget, ?_, ?_⟩
    · intro b hb
      rw [hK]
      exact fold_min_le key as a b hb
    · intro j hj b hb
      have hfail := hbefore j hj b hb
      have hne : ¬ (key b = fold_min key a as) := by simpa using hfail
      have hle : fold_min key a as ≤ key b :=
        fold_min_le key as a b (List.get?_mem hb)
      omega

theorem bu_table_drop_last_row (img : RgbImage) (es : List Nat) (hH : 1 ≤ img.height) :
    (bu_table img es img.height).drop (img.width * (img.height - 1))
      = (List.range img.width).map (fun x => bu_cell img es x (img.height - 1)) := by
  obtain ⟨h2, hh2⟩ : ∃ h2, img.height = h2 + 1 := ⟨img.height - 1, by omega⟩
  rw [hh2]
  simp only [Nat.add_sub_cancel]
  rw [bu_table_append_row]
  have hlen : img.width * h2 = (bu_table img es h2).length := by
    rw [bu_table_length]
    ring
  rw [hlen, List.drop_left]

/-- What determine_best_seam returns on a generated DP table: the cell
of the leftmost minimum-cost bottom-row column. -/
theorem determine_best_table (img : RgbImage) (es : List Nat)
    (hW : 1 ≤ img.width) (hH : 1 ≤ img.height) :
    ∃ c, c < img.width ∧
      determine_best_seam img (bu_table img es img.height)
        = some (bu_cell img es c (img.height - 1)) ∧
      (∀ c2, c2 < img.width →
        dp_costs img es (img.height - 1) c ≤ dp_costs img es (img.height - 1) c2) ∧
      (∀ c2, c2 < c →
        dp_costs img es (img.height - 1) c < dp_costs img es (img.height - 1) c2) := by
  unfold determine_best_seam
  rw [bu_table_drop_last_row img es hH]
  have hne : ∃ a as, (List.range img.width).map
      (fun x => bu_cell img es x (img.height - 1)) = a :: as := by
    cases hr : (List.range img.width).map (fun x => bu_cell img es x (img.height - 1)) with
    | nil =>
      exfalso
      have : img.width = 0 := by simpa using congrArg List.length hr
      omega
    | cons a as => exact ⟨a, as, rfl⟩
  obtain ⟨a, as, hr⟩ := hne
  rw [hr]
  have hm : min_by_key (fun s : Seam => s.cost) (a :: as)
      = some (fold_best (fun s : Seam => s.cost) a as) := min_by_key_cons _ a as
  obtain ⟨i, hget, hmin, hstrict⟩ :=
    min_by_key_first_min (fun s : Seam => s.cost) (a :: as) _ hm
  have hgetmap : ((List.range img.width).map
      (fun x => bu_cell img es x (img.height - 1))).get? i
      = some (fold_best (fun s : Seam => s.cost) a as) := by
    rw [hr]
    exact hget
  have hiW : i < img.width := by
    by_contra hc
    push_neg at hc
    have hlen2 : ((List.range img.width).map
        (fun x => bu_cell img es x (img.height - 1))).length ≤ i := by
      simpa using hc
    rw [List.get?_eq_none.mpr hlen2] at hgetmap
    simp at hgetmap
  have hmi : fold_best (fun s : Seam => s.cost) a as = bu_cell img es i (img.height - 1) := by
    rw [List.get?_map, List.get?_range hiW] at hgetmap
    simpa using hgetmap.symm
  refine ⟨i, hiW, by rw [hm, hmi], ?_, ?_⟩
  · intro c2 hc2
    have hmem : bu_cell img es c2 (img.height - 1) ∈ a :: as := by
      rw [← hr]
      exact List.mem_map.mpr ⟨c2, List.mem_range.mpr hc2, rfl⟩
    have := hmin _ hmem
    rw [hmi] at this
    rw [bu_cell_cost, bu_cell_cost] at this
    exact this
  · intro c2 hc2
    have hgetc2 : (a :: as).get? c2 = some (bu_cell img es c2 (img.height - 1)) := by
      rw [← hr, List.get?_map, List.get?_range (by omega)]
      rfl
    have := hstrict c2 hc2 _ hgetc2
    rw [hmi] at this
    rw [bu_cell_cost, bu_cell_cost] at this
    exact this

theorem seam_to_position_vector_eq (img : RgbImage) (es : List Nat)
    (hWD : 2 ≤ img.width ∨ img.height ≤ 1) (x y : Nat)
    (hx : x < img.width) (hy : y < img.height) :
    seam_to_position_vector img (bu_table img es img.height) (bu_cell img es x y)
      = top_path img es x y := by
  unfold seam_to_position_vector top_path
  have hfuel : y ≤ (bu_table img es img.height).length := by
    rw [bu_table_length]
    rcases hWD with h | h
    · have h2 : img.height * 1 ≤ img.height * img.width :=
        Nat.mul_le_mul (le_refl img.height) (by omega)
      omega
    · omega
  rw [seam_walk_eq img es hWD y x _ hx hy hfuel, bu_cell_posn]
  rw [List.reverse_cons]

theorem calculate_energy_some (img : RgbImage) (x y e : Nat)
    (h : calculate_energy img x y = some e) :
    ∃ c ns, img.get_pixel x y = some c ∧
      option_traverse (fun p => img.get_pixel p.x p.y)
        (get_von_neumann_neighbors img x y) = some ns ∧
      e = ns.foldl (energy_step c) 0 := by
  unfold calculate_energy at h
  cases hc : img.get_pixel x y with
  | none => rw [hc] at h; simp at h
  | some c =>
    rw [hc] at h
    cases hns : option_traverse (fun p => img.get_pixel p.x p.y)
        (get_von_neumann_neighbors img x y) with
    | none => rw [hns] at h; simp at h
    | some ns =>
      rw [hns] at h
      refine ⟨c, ns, rfl, rfl, ?_⟩
      have := h.symm
      simpa [Option.pure_def] using this

theorem option_traverse_mem_exists {α β : Type} {f : α → Option β} {l : List α} {r : List β}
    (h : option_traverse f l = some r) (b : β) (hb : b ∈ r) : ∃ a ∈ l, f a = some b := by
  obtain ⟨i, hi⟩ := List.get?_of_mem hb
  have hlen := option_traverse_length h
  have hil : i < l.length := by
    by_contra hc
    push_neg at hc
    rw [List.get?_eq_none.mpr (by omega)] at hi
    simp at hi
  obtain ⟨a, ha⟩ : ∃ a, l.get? i = some a := by
    cases hl : l.get? i with
    | none => rw [List.get?_eq_none] at hl; omega
    | some a => exact ⟨a, rfl⟩
  have h2 := option_traverse_get? h ha
  rw [hi] at h2
  exact ⟨a, List.get?_mem ha, h2.symm⟩

theorem get_pixel_wf (img : RgbImage) (hwf : img.wf) (x y : Nat) (p : Pixel)
    (h : img.get_pixel x y = some p) : p.wf := by
  unfold RgbImage.get_pixel at h
  split_ifs at h with hb
  exact hwf.2 p (List.get?_mem h)

theorem get_pixel_some_bounds (img : RgbImage) (x y : Nat) (p : Pixel)
    (h : img.get_pixel x y = some p) : x < img.width ∧ y < img.height := by
  unfold RgbImage.get_pixel at h
  split_ifs at h with hb
  exact hb

theorem sq_channel_diff_le (a b : Nat) (ha : a < 256) (hb : b < 256) :
    sq_channel_diff a b ≤ 65025 := by
  unfold sq_channel_diff
  have h1 : ((a : Int) - b).natAbs ≤ 255 := by omega
  calc ((a : Int) - b).natAbs ^ 2 ≤ 255 ^ 2 := Nat.pow_le_pow_left h1 2
  _ = 65025 := by norm_num

theorem pixel_contrib_le (c n : Pixel) (hc : c.wf) (hn : n.wf) :
    pixel_contrib c n ≤ 195075 := by
  obtain ⟨h1, h2, h3⟩ := hc
  obtain ⟨h4, h5, h6⟩ := hn
  have hr := sq_channel_diff_le n.r c.r h4 h1
  have hg := sq_channel_diff_le n.g c.g h5 h2
  have hb := sq_channel_diff_le n.b c.b h6 h3
  unfold pixel_contrib
  omega

theorem energy_fold_eq (c : Pixel) :
    ∀ (ns : List Pixel) (acc : Nat),
      (∀ n ∈ ns, pixel_contrib c n ≤ 195075) →
      acc + 195075 * ns.length < 4294967296 →
      ns.foldl (energy_step c) acc = acc + (ns.map (pixel_contrib c)).sum ∧
      ns.foldl (energy_step_exact c) acc = acc + (ns.map (pixel_contrib c)).sum := by
  intro ns
  induction ns with
  | nil => intro acc _ _; simp
  | cons n ns2 ih =>
    intro acc hb hov
    have hn := hb n (by simp)
    simp only [List.length_cons] at hov
    have hlenmul : 195075 * (ns2.length + 1) = 195075 * ns2.length + 195075 := by ring
    have hsum : acc + pixel_contrib c n < 4294967296 := by omega
    have hstep : energy_step c acc n = acc + pixel_contrib c n := by
      show u32_add (u32_add (u32_add acc (sq_channel_diff n.r c.r))
        (sq_channel_diff n.g c.g)) (sq_channel_diff n.b c.b) = _
      unfold u32_add
      unfold pixel_contrib at hsum hn ⊢
      have e1 : (acc + sq_channel_diff n.r c.r) % 4294967296
          = acc + sq_channel_diff n.r c.r := Nat.mod_eq_of_lt (by omega)
      rw [e1]
      have e2 : (acc + sq_channel_diff n.r c.r + sq_channel_diff n.g c.g) % 4294967296
          = acc + sq_channel_diff n.r c.r + sq_channel_diff n.g c.g :=
        Nat.mod_eq_of_lt (by omega)
      rw [e2]
      have e3 : (acc + sq_channel_diff n.r c.r + sq_channel_diff n.g c.g
            + sq_channel_diff n.b c.b) % 4294967296
          = acc + sq_channel_diff n.r c.r + sq_channel_diff n.g c.g
            + sq_channel_diff n.b c.b := Nat.mod_eq_of_lt (by omega)
      rw [e3]
      omega
    have hstepx : energy_step_exact c acc n = acc + pixel_contrib c n := rfl
    have ihx := ih (acc + pixel_contrib c n)
      (fun m hm => hb m (by simp [hm])) (by omega)
    constructor
    · show List.foldl (energy_step c) (energy_step c acc n) ns2 = _
      rw [hstep, ihx.1]
      simp only [List.map_cons, List.sum_cons]
      omega
    · show List.foldl (energy_step_exact c) (energy_step_exact c acc n) ns2 = _
      rw [hstepx, ihx.2]
      simp only [List.map_cons, List.sum_cons]
      omega

theorem vn_neighbors_length_le (img : RgbImage) (x y : Nat) :
    (get_von_neumann_neighbors img x y).length ≤ 4 := by
  unfold get_von_neumann_neighbors
  rw [List.length_append]
  have h1 : (if x = 0 then [(⟨x + 1, y⟩ : Position)]
      else if x = img.width - 1 then [⟨x - 1, y⟩]
      else [⟨x - 1, y⟩, ⟨x + 1, y⟩]).length ≤ 2 := by
    split_ifs <;> simp
  have h2 : (if y = 0 then [(⟨x, y + 1⟩ : Position)]
      else if y = img.height - 1 then [⟨x, y - 1⟩]
      else [⟨x, y + 1⟩, ⟨x, y - 1⟩]).length ≤ 2 := by
    split_ifs <;> simp
  omega

theorem map_sum_le {α : Type} (f : α → Nat) (B : Nat) :
    ∀ l : List α, (∀ a ∈ l, f a ≤ B) → (l.map f).sum ≤ B * l.length := by
  intro l
  induction l with
  | nil => intro _; simp
  | cons a as ih =>
    intro h
    simp only [List.map_cons, List.sum_cons, List.length_cons]
    have h1 := h a (by simp)
    have h2 := ih (fun b hb => h b (by simp [hb]))
    have h3 : B * (as.length + 1) = B * as.length + B := by ring
    omega

/-- Characterisation of a successful energy computation on a
well-formed image: the value is the exact sum of the per-neighbour
squared-difference contributions, bounded by 4 * 3 * 255^2. -/
theorem calculate_energy_char (img : RgbImage) (hwf : img.wf) (x y e : Nat)
    (h : calculate_energy img x y = some e) :
    ∃ c ns, img.get_pixel x y = some c ∧
      option_traverse (fun p => img.get_pixel p.x p.y)
        (get_von_neumann_neighbors img x y) = some ns ∧
      e = (ns.map (pixel_contrib c)).sum ∧
      e ≤ 780300 ∧
      calculate_energy_exact img x y = some e := by
  obtain ⟨c, ns, hc, hns, he⟩ := calculate_energy_some img x y e h
  have hcwf := get_pixel_wf img hwf x y c hc
  have hnswf : ∀ n ∈ ns, n.wf := by
    intro n hn
    obtain ⟨p, _, hget⟩ := option_traverse_mem_exists hns n hn
    exact get_pixel_wf img hwf p.x p.y n hget
  have hcontrib : ∀ n ∈ ns, pixel_contrib c n ≤ 195075 := fun n hn =>
    pixel_contrib_le c n hcwf (hnswf n hn)
  have hnslen : ns.length ≤ 4 := by
    rw [option_traverse_length hns]
    exact vn_neighbors_length_le img x y
  have hfold := energy_fold_eq c ns 0 hcontrib (by omega)
  have hesum : e = (ns.map (pixel_contrib c)).sum := by
    rw [he, hfold.1]
    omega
  have hbound : e ≤ 780300 := by
    rw [hesum]
    have := map_sum_le (pixel_contrib c) 195075 ns hcontrib
    omega
  refine ⟨c, ns, hc, hns, hesum, hbound, ?_⟩
  unfold calculate_energy_exact
  rw [hc, hns]
  show some (ns.foldl (energy_step_exact c) 0) = some e
  rw [hfold.2, hesum]
  simp

theorem inbounds_vn_length_eq (W H x y : Nat) :
    (inbounds_vn_neighbors W H x y).length =
      (if 1 ≤ x then 1 else 0) + (if x + 1 < W then 1 else 0)
        + (if 1 ≤ y then 1 else 0) + (if y + 1 < H then 1 else 0) := by
  unfold inbounds_vn_neighbors
  split_ifs <;> simp

theorem inbounds_vn_length_corner (W H x y : Nat) (hW : 2 ≤ W) (hH : 2 ≤ H)
    (h : is_corner W H x y) : (inbounds_vn_neighbors W H x y).length = 2 := by
  rw [inbounds_vn_length_eq]
  obtain ⟨h1 | h1, h2 | h2⟩ := h <;> subst h1 <;> subst h2 <;> split_ifs <;> omega

theorem inbounds_vn_length_interior (W H x y : Nat)
    (h : is_interior W H x y) : (inbounds_vn_neighbors W H x y).length = 4 := by
  rw [inbounds_vn_length_eq]
  obtain ⟨h1, h2, h3, h4⟩ := h
  split_ifs <;> omega

theorem inbounds_vn_length_boundary (W H x y : Nat) (hW : 2 ≤ W) (hH : 2 ≤ H)
    (hx : x < W) (hy : y < H)
    (h : is_boundary_noncorner W H x y) : (inbounds_vn_neighbors W H x y).length = 3 := by
  rw [inbounds_vn_length_eq]
  obtain ⟨hb, hnc⟩ := h
  rcases hb with h1 | h1 | h1 | h1
  · have hy0 : y ≠ 0 := fun hc => hnc ⟨Or.inl h1, Or.inl hc⟩
    have hyH : y ≠ H - 1 := fun hc => hnc ⟨Or.inl h1, Or.inr hc⟩
    subst h1
    split_ifs <;> omega
  · have hy0 : y ≠ 0 := fun hc => hnc ⟨Or.inr h1, Or.inl hc⟩
    have hyH : y ≠ H - 1 := fun hc => hnc ⟨Or.inr h1, Or.inr hc⟩
    subst h1
    split_ifs <;> omega
  · have hx0 : x ≠ 0 := fun hc => hnc ⟨Or.inl hc, Or.inl h1⟩
    have hxW : x ≠ W - 1 := fun hc => hnc ⟨Or.inr hc, Or.inl h1⟩
    subst h1
    split_ifs <;> omega
  · have hx0 : x ≠ 0 := fun hc => hnc ⟨Or.inl hc, Or.inr h1⟩
    have hxW : x ≠ W - 1 := fun hc => hnc ⟨Or.inr hc, Or.inr h1⟩
    subst h1
    split_ifs <;> omega

theorem vn_h_eq (img : RgbImage) (x y : Nat) (hx : x < img.width) (hW : 2 ≤ img.width) :
    (if x = 0 then [(⟨x + 1, y⟩ : Position)]
     else if x = img.width - 1 then [⟨x - 1, y⟩]
     else [⟨x - 1, y⟩, ⟨x + 1, y⟩])
      = (if 1 ≤ x then [(⟨x - 1, y⟩ : Position)] else [])
        ++ (if x + 1 < img.width then [⟨x + 1, y⟩] else []) := by
  by_cases hx0 : x = 0
  · subst hx0
    rw [if_pos rfl, if_neg (by omega : ¬ 1 ≤ 0), if_pos (by omega : 0 + 1 < img.width)]
    rfl
  · by_cases hxW : x = img.width - 1
    · rw [if_neg hx0, if_pos hxW, if_pos (by omega : 1 ≤ x),
        if_neg (by omega : ¬ x + 1 < img.width)]
      rfl
    · rw [if_neg hx0, if_neg hxW, if_pos (by omega : 1 ≤ x),
        if_pos (by omega : x + 1 < img.width)]
      rfl

theorem vn_v_sum_eq (img : RgbImage) (x y : Nat) (hy : y < img.height)
    (hH : 2 ≤ img.height) (f : Position → Nat) :
    ((if y = 0 then [(⟨x, y + 1⟩ : Position)]
      else if y = img.height - 1 then [⟨x, y - 1⟩]
      else [⟨x, y + 1⟩, ⟨x, y - 1⟩]).map f).sum
      = (((if 1 ≤ y then [(⟨x, y - 1⟩ : Position)] else [])
          ++ (if y + 1 < img.height then [(⟨x, y + 1⟩ : Position)] else [])).map f).sum := by
  by_cases hy0 : y = 0
  · subst hy0
    rw [if_pos rfl, if_neg (by omega : ¬ 1 ≤ 0), if_pos (by omega : 0 + 1 < img.height)]
    simp
  · by_cases hyH : y = img.height - 1
    · rw [if_neg hy0, if_pos hyH, if_pos (by omega : 1 ≤ y),
        if_neg (by omega : ¬ y + 1 < img.height)]
      simp
    · rw [if_neg hy0, if_neg hyH, if_pos (by omega : 1 ≤ y),
        if_pos (by omega : y + 1 < img.height)]
      simp only [List.map_cons, List.map_nil, List.sum_cons, List.sum_nil,
        List.map_append, List.sum_append]
      omega

theorem code_neighbors_eq_spec_sum (img : RgbImage) (x y : Nat) (f : Position → Nat)
    (hx : x < img.width) (hy : y < img.height)
    (hW : 2 ≤ img.width) (hH : 2 ≤ img.height) :
    ((get_von_neumann_neighbors img x y).map f).sum
      = ((inbounds_vn_neighbors img.width img.height x y).map f).sum := by
  unfold get_von_neumann_neighbors inbounds_vn_neighbors
  rw [vn_h_eq img x y hx hW]
  have hv := vn_v_sum_eq img x y hy hH f
  simp only [List.map_append, List.sum_append] at hv ⊢
  omega

theorem traverse_pixels_eq (img : RgbImage) (l : List Position) (ns : List Pixel)
    (h : option_traverse (fun p => img.get_pixel p.x p.y) l = some ns) :
    ns = l.map (fun p => img.pixelD p.x p.y) := by
  have hall : ∀ p ∈ l, img.get_pixel p.x p.y = some (img.pixelD p.x p.y) := by
    intro p hp
    obtain ⟨q, hq⟩ := option_traverse_mem_some h p hp
    unfold RgbImage.pixelD
    rw [hq]
    rfl
  have h2 := option_traverse_eq_some hall
  rw [h] at h2
  simpa using h2

theorem energy_success_dims (img : RgbImage) (x y e : Nat)
    (h : calculate_energy img x y = some e) :
    x < img.width ∧ y < img.height ∧ 2 ≤ img.width ∧ 2 ≤ img.height := by
  obtain ⟨c, ns, hc, hns, _⟩ := calculate_energy_some img x y e h
  obtain ⟨hx, hy⟩ := get_pixel_some_bounds img x y c hc
  have hmem := option_traverse_mem_some hns
  refine ⟨hx, hy, ?_, ?_⟩
  · by_cases hx0 : x = 0
    · have hin : (⟨x + 1, y⟩ : Position) ∈ get_von_neumann_neighbors img x y := by
        unfold get_von_neumann_neighbors
        rw [if_pos hx0]
        simp
      obtain ⟨p2, hp2⟩ := hmem _ hin
      have hb := get_pixel_some_bounds img (x + 1) y p2 hp2
      omega
    · omega
  · by_cases hy0 : y = 0
    · have hin : (⟨x, y + 1⟩ : Position) ∈ get_von_neumann_neighbors img x y := by
        unfold get_von_neumann_neighbors
        rw [if_pos hy0]
        simp
      obtain ⟨p2, hp2⟩ := hmem _ hin
      have hb := get_pixel_some_bounds img x (y + 1) p2 hp2
      omega
    · omega

theorem grid_indices_get? (w h x y : Nat) (hx : x < w) (hy : y < h) :
    (grid_indices w h).get? (y * w + x) = some (x, y) := by
  unfold grid_indices
  have hg := flat_get? (l := List.range h)
    (f := fun y2 => (List.range w).map (fun x2 => (x2, y2)))
    (L := w) (fun a _ => by simp) (k := y) (x := x) hx y (List.get?_range hy)
  rw [hg, List.get?_map, List.get?_range hx]
  rfl

theorem energies_entry (img : RgbImage) (es : List Nat) (x y : Nat)
    (hx : x < img.width) (hy : y < img.height)
    (hes : generate_energies_vector img = some es) :
    es.get? (y * img.width + x) = calculate_energy img x y := by
  unfold generate_energies_vector at hes
  have hidx := grid_indices_get? img.width img.height x y hx hy
  have := option_traverse_get? hes hidx
  simpa using this

theorem eraseIdx_map {α β : Type} (f : α → β) :
    ∀ (l : List α) (i : Nat), (l.map f).eraseIdx i = (l.eraseIdx i).map f := by
  intro l
  induction l with
  | nil => intro i; simp
  | cons a as ih =>
    intro i
    cases i with
    | zero => simp [List.eraseIdx]
    | succ i2 => simp only [List.map_cons, List.eraseIdx]; rw [ih i2]

theorem eraseIdx_append_left {α : Type} :
    ∀ (l1 l2 : List α) (i : Nat), i < l1.length →
      (l1 ++ l2).eraseIdx i = l1.eraseIdx i ++ l2 := by
  intro l1
  induction l1 with
  | nil => intro l2 i h; simp at h
  | cons a as ih =>
    intro l2 i h
    cases i with
    | zero => simp [List.eraseIdx]
    | succ i2 =>
      simp only [List.cons_append, List.eraseIdx, List.append_eq]
      rw [ih l2 i2 (by simpa using h)]

theorem eraseIdx_concat_self {α : Type} :
    ∀ (l : List α) (a : α), (l ++ [a]).eraseIdx l.length = l := by
  intro l
  induction l with
  | nil => intro a; rfl
  | cons b bs ih =>
    intro a
    simp only [List.cons_append, List.length_cons, List.eraseIdx, List.append_eq]
    rw [ih a]

theorem range_filter_ne_eq_eraseIdx :
    ∀ (n c : Nat), c < n →
      (List.range n).filter (fun v => v ≠ c) = (List.range n).eraseIdx c := by
  intro n
  induction n with
  | zero => intro c h; omega
  | succ n2 ih =>
    intro c h
    rw [List.range_succ, List.filter_append]
    by_cases hc : c < n2
    · rw [eraseIdx_append_left _ _ c (by simpa using hc)]
      rw [ih c hc]
      have hne : (n2 ≠ c) = True := by simp; omega
      simp [hne]
    · have hceq : c = n2 := by omega
      subst hceq
      have h1 : (List.range c).filter (fun v => v ≠ c) = List.range c := by
        apply List.filter_eq_self.mpr
        intro a ha
        have := List.mem_range.mp ha
        simp
        omega
      have h2 : (List.range c ++ [c]).eraseIdx c = List.range c := by
        have := eraseIdx_concat_self (List.range c) c
        simpa using this
      rw [h1, h2]
      simp

theorem image_row_length (img : RgbImage) (y : Nat) :
    (image_row img y).length = img.width := by
  simp [image_row]

theorem cut_row_eq (img : RgbImage) (y c : Nat) (hc : c < img.width) :
    cut_row img y c = (image_row img y).eraseIdx c := by
  unfold cut_row image_row
  rw [eraseIdx_map, range_filter_ne_eq_eraseIdx img.width c hc]

theorem length_eraseIdx_of_lt {α : Type} :
    ∀ (l : List α) (i : Nat), i < l.length → (l.eraseIdx i).length = l.length - 1 := by
  intro l
  induction l with
  | nil => intro i h; simp at h
  | cons a as ih =>
    intro i h
    cases i with
    | zero => simp [List.eraseIdx]
    | succ i2 =>
      simp only [List.eraseIdx, List.length_cons]
      rw [ih i2 (by simpa using h)]
      have : 1 ≤ as.length := by
        simp only [List.length_cons] at h
        omega
      omega

theorem remove_seam_row (img : RgbImage) (posns : List Position) (y : Nat)
    (hW : 2 ≤ img.width) (hy : y < img.height)
    (hlen : posns.length = img.height)
    (hin : ∀ p ∈ posns, p.x < img.width) :
    image_row (remove_seam img posns) y
      = (image_row img y).eraseIdx ((posns.getD y ⟨0, 0⟩).x) := by
  obtain ⟨p, hp⟩ : ∃ p, posns.get? y = some p := by
    cases hg : posns.get? y with
    | none => rw [List.get?_eq_none] at hg; omega
    | some p => exact ⟨p, rfl⟩
  have hpmem := List.get?_mem hp
  have hpx := hin p hpmem
  have hpD : posns.getD y ⟨0, 0⟩ = p := by
    rw [getD_eq_get?, hp]
    rfl
  rw [hpD]
  have hrowf : ∀ y2 ∈ List.range img.height,
      ((fun y3 => match posns.get? y3 with
        | some q => cut_row img y3 q.x
        | none => List.replicate (img.width - 1) (⟨0, 0, 0⟩ : Pixel)) y2).length
        = img.width - 1 := by
    intro y2 _
    cases hg : posns.get? y2 with
    | none =>
      simp only [hg]
      simp
    | some q =>
      have hqx := hin q (List.get?_mem hg)
      simp only [hg]
      rw [cut_row_eq img y2 q.x hqx,
        length_eraseIdx_of_lt _ q.x (by rw [image_row_length]; exact hqx),
        image_row_length]
  have hcutlen : (cut_row img y p.x).length = img.width - 1 := by
    rw [cut_row_eq img y p.x hpx,
      length_eraseIdx_of_lt _ p.x (by rw [image_row_length]; exact hpx),
      image_row_length]
  have hpixget : ∀ x, x < img.width - 1 →
      (remove_seam img posns).get_pixel x y = (cut_row img y p.x).get? x := by
    intro x hx
    show (if x < (remove_seam img posns).width ∧ y < (remove_seam img posns).height
      then (remove_seam img posns).pixels.get? (x + y * (remove_seam img posns).width)
      else none) = _
    rw [if_pos ⟨hx, hy⟩]
    show ((List.range img.height).flatMap (fun y3 =>
      match posns.get? y3 with
      | some q => cut_row img y3 q.x
      | none => List.replicate (img.width - 1) ⟨0, 0, 0⟩)).get? (x + y * (img.width - 1)) = _
    have hcomm : x + y * (img.width - 1) = y * (img.width - 1) + x := by omega
    rw [hcomm]
    rw [flat_get? hrowf hx y (List.get?_range hy)]
    simp only [hp]
  apply List.ext_get?
  intro n
  by_cases hn : n < img.width - 1
  · have hl : (image_row (remove_seam img posns) y).get? n
        = some ((remove_seam img posns).pixelD n y) := by
      unfold image_row
      have hwidth : (remove_seam img posns).width = img.width - 1 := rfl
      rw [hwidth, List.get?_map, List.get?_range hn]
      rfl
    rw [hl]
    rw [← cut_row_eq img y p.x hpx]
    obtain ⟨v, hv⟩ : ∃ v, (cut_row img y p.x).get? n = some v := by
      cases hg : (cut_row img y p.x).get? n with
      | none => rw [List.get?_eq_none] at hg; omega
      | some v => exact ⟨v, rfl⟩
    rw [hv]
    unfold RgbImage.pixelD
    rw [hpixget n hn, hv]
    rfl
  · have hl : (image_row (remove_seam img posns) y).get? n = none := by
      apply List.get?_eq_none.mpr
      rw [image_row_length]
      show (remove_seam img posns).width ≤ n
      show img.width - 1 ≤ n
      omega
    have hr : ((image_row img y).eraseIdx p.x).get? n = none := by
      apply List.get?_eq_none.mpr
      rw [length_eraseIdx_of_lt _ p.x (by rw [image_row_length]; exact hpx),
        image_row_length]
      omega
    rw [hl, hr]

/-! ### The claims -/

/-- C9: carve with columns_to_remove = 0 runs zero loop iterations and
returns the input grid unchanged in dimensions and pixels. -/
theorem C9_carve_zero_identity (img : RgbImage) : carve img 0 = some img := rfl

/-- C8: contrary to the claim, main performs no InvalidDimension check.
On a 0 x 2 grid with one column to carve, the first loop iteration runs
(the energy map is computed as the empty vector) and the failure is the
`.unwrap()` panic inside determine_best_seam on the empty bottom-row
slice (modelled as `none`), not a pre-loop rejection; with zero columns
to carve the degenerate grid is returned unchanged with no error. -/
theorem C8_no_invalid_dimension_check :
    carve ⟨0, 2, []⟩ 0 = some ⟨0, 2, []⟩ ∧
    generate_energies_vector ⟨0, 2, []⟩ = some [] ∧
    determine_best_seam ⟨0, 2, []⟩ (generate_bottom_up_vector ⟨0, 2, []⟩ []) = none ∧
    carve ⟨0, 2, []⟩ 1 = none := by decide

/-- C7: contrary to the claim, on a 1 x 3 grid the pixel (0, 1) gets a
neighbour list of three positions, one of which ((1, 1)) lies outside
the grid, and the energy computation reads out of bounds (a panic in
Rust, modelled as `none`). -/
theorem C7_degenerate_width_out_of_bounds :
    (get_von_neumann_neighbors ⟨1, 3, List.replicate 3 ⟨0, 0, 0⟩⟩ 0 1).length = 3 ∧
    (⟨1, 1⟩ : Position) ∈ get_von_neumann_neighbors ⟨1, 3, List.replicate 3 ⟨0, 0, 0⟩⟩ 0 1 ∧
    ¬ ((⟨1, 1⟩ : Position).x < (⟨1, 3, List.replicate 3 ⟨0, 0, 0⟩⟩ : RgbImage).width) ∧
    calculate_energy ⟨1, 3, List.replicate 3 ⟨0, 0, 0⟩⟩ 0 1 = none := by decide

/-- C10: on a well-formed image every computed per-pixel energy is at
most 4 * 3 * 255^2 = 780300, and the whole wrapping u32 accumulation
agrees with the exact accumulation — no wraparound ever occurs. -/
theorem C10_energy_no_overflow (img : RgbImage) (x y e : Nat)
    (hwf : img.wf) (h : calculate_energy img x y = some e) :
    e ≤ 780300 ∧ calculate_energy_exact img x y = some e := by
  obtain ⟨c, ns, _, _, _, hb, hx⟩ := calculate_energy_char img hwf x y e h
  exact ⟨hb, hx⟩

theorem C10_energy_no_overflow_witness :
    wimg2.wf ∧ calculate_energy wimg2 0 0 = some 260100 ∧
      (260100 ≤ 780300 ∧ calculate_energy_exact wimg2 0 0 = some 260100) :=
  ⟨by decide, by decide, C10_energy_no_overflow wimg2 0 0 260100 (by decide) (by decide)⟩

/-- C2: whenever the energy map is computed (which presupposes the
neighbour reads succeed), the value it assigns to pixel (x, y) is the
sum, over the in-bounds von-Neumann neighbours, of the squared
per-channel differences, and the in-bounds neighbour count is exactly 2
at a corner, 3 on a non-corner edge and 4 in the interior. -/
theorem C2_energy_formula (img : RgbImage) (es : List Nat) (x y : Nat)
    (hwf : img.wf) (hx : x < img.width) (hy : y < img.height)
    (hes : generate_energies_vector img = some es) :
    es.get? (y * img.width + x) = some (vn_energy_spec img x y) ∧
    (is_corner img.width img.height x y →
      (inbounds_vn_neighbors img.width img.height x y).length = 2) ∧
    (is_boundary_noncorner img.width img.height x y →
      (inbounds_vn_neighbors img.width img.height x y).length = 3) ∧
    (is_interior img.width img.height x y →
      (inbounds_vn_neighbors img.width img.height x y).length = 4) := by
  have hentry := energies_entry img es x y hx hy hes
  have hsome : ∃ e, calculate_energy img x y = some e := by
    have hg := grid_indices_get? img.width img.height x y hx hy
    unfold generate_energies_vector at hes
    exact option_traverse_mem_some hes _ (List.get?_mem hg)
  obtain ⟨e, he⟩ := hsome
  obtain ⟨hx2, hy2, hW2, hH2⟩ := energy_success_dims img x y e he
  obtain ⟨c, ns, hc, hns, hesum, hbound, _⟩ := calculate_energy_char img hwf x y e he
  have hnseq := traverse_pixels_eq img _ ns hns
  have hcpd : img.pixelD x y = c := by
    unfold RgbImage.pixelD
    rw [hc]
    rfl
  have hsum2 : e = ((get_von_neumann_neighbors img x y).map
      (fun p => pixel_contrib c (img.pixelD p.x p.y))).sum := by
    rw [hesum, hnseq, List.map_map]
    rfl
  have hspec : e = vn_energy_spec img x y := by
    rw [hsum2]
    unfold vn_energy_spec
    rw [hcpd]
    exact code_neighbors_eq_spec_sum img x y _ hx hy hW2 hH2
  refine ⟨by rw [hentry, he, hspec], ?_, ?_, ?_⟩
  · exact fun hcor => inbounds_vn_length_corner _ _ _ _ hW2 hH2 hcor
  · exact fun hbd => inbounds_vn_length_boundary _ _ _ _ hW2 hH2 hx hy hbd
  · exact fun hint => inbounds_vn_length_interior _ _ _ _ hint

theorem C2_energy_formula_witness :
    wimg2.wf ∧ (0 : Nat) < wimg2.width ∧ (0 : Nat) < wimg2.height ∧
    generate_energies_vector wimg2 = some [260100, 260100, 260100, 260100] ∧
    (([260100, 260100, 260100, 260100] : List Nat).get? (0 * wimg2.width + 0)
        = some (vn_energy_spec wimg2 0 0) ∧
      (is_corner wimg2.width wimg2.height 0 0 →
        (inbounds_vn_neighbors wimg2.width wimg2.height 0 0).length = 2) ∧
      (is_boundary_noncorner wimg2.width wimg2.height 0 0 →
        (inbounds_vn_neighbors wimg2.width wimg2.height 0 0).length = 3) ∧
      (is_interior wimg2.width wimg2.height 0 0 →
        (inbounds_vn_neighbors wimg2.width wimg2.height 0 0).length = 4)) :=
  ⟨by decide, by decide, by decide, by decide,
    C2_energy_formula wimg2 [260100, 260100, 260100, 260100] 0 0
      (by decide) (by decide) (by decide) (by decide)⟩

/-- C3: the predecessor recorded for cell (x, y) (row y ≥ 1) is the
first candidate, in the order directly-above, right-diagonal,
left-diagonal restricted to in-bounds columns, whose recorded
cumulative cost is minimal — ties broken by that evaluation order. -/
theorem C3_predecessor_first_min (img : RgbImage) (es : List Nat) (x y : Nat)
    (hW : 2 ≤ img.width) (hx : x < img.width) (hy1 : 1 ≤ y) (hy : y < img.height) :
    ((generate_bottom_up_vector img es).getD (x + y * img.width) ⟨⟨0, 0⟩, none, 0⟩).prev_posn
      = spec_first_min
          (fun q => (seam_at (generate_bottom_up_vector img es) img.width q).cost)
          (spec_pred_candidates img.width x y) := by
  rw [generate_eq_bu_table img es (Or.inl hW) (by omega)]
  rw [bu_table_get img es img.height x y hx hy]
  have hcell : (bu_cell img es x y).prev_posn = some (dp_prev img es x y) := by
    rw [bu_cell, if_neg (by omega : ¬ y = 0)]
  rw [hcell]
  have hcand : spec_pred_candidates img.width x y = get_bottom_up_neighbors img x y := by
    unfold spec_pred_candidates get_bottom_up_neighbors
    rw [if_neg (by omega : ¬ y = 0)]
    by_cases hx0 : x = 0
    · subst hx0
      rw [if_pos rfl, if_pos (by omega : 0 + 1 < img.width), if_neg (by omega : ¬ 1 ≤ 0)]
      rfl
    · by_cases hxW : x = img.width - 1
      · rw [if_neg hx0, if_pos hxW, if_neg (by omega : ¬ x + 1 < img.width),
          if_pos (by omega : 1 ≤ x)]
        rfl
      · rw [if_neg hx0, if_neg hxW, if_pos (by omega : x + 1 < img.width),
          if_pos (by omega : 1 ≤ x)]
        rfl
  rw [hcand, ← min_by_key_eq_spec_first_min]
  have hkey : ∀ q ∈ get_bottom_up_neighbors img x y,
      (seam_at (bu_table img es img.height) img.width q).cost
        = dp_costs img es (y - 1) q.x := by
    intro q hq
    obtain ⟨hqy, hqx, _, _⟩ := bu_neighbors_sound img x y hW hx hy1 q hq
    unfold seam_at
    rw [hqy]
    rw [bu_table_get img es img.height q.x (y - 1) hqx (by omega), bu_cell_cost]
  rw [min_by_key_congr _ (fun q : Position => dp_costs img es (y - 1) q.x) _ hkey]
  unfold dp_prev
  cases hl : get_bottom_up_neighbors img x y with
  | nil => exact absurd hl (bu_neighbors_ne_nil img x y hy1)
  | cons a as =>
    rw [min_by_key_cons]
    rfl

theorem C3_predecessor_first_min_witness :
    (2 ≤ wimg2.width ∧ (0 : Nat) < wimg2.width ∧ (1 : Nat) ≤ 1 ∧ (1 : Nat) < wimg2.height) ∧
    ((generate_bottom_up_vector wimg2 [7, 3, 5, 2]).getD
        (0 + 1 * wimg2.width) ⟨⟨0, 0⟩, none, 0⟩).prev_posn
      = spec_first_min
          (fun q => (seam_at (generate_bottom_up_vector wimg2 [7, 3, 5, 2]) wimg2.width q).cost)
          (spec_pred_candidates wimg2.width 0 1) :=
  ⟨⟨by decide, by decide, by decide, by decide⟩,
    C3_predecessor_first_min wimg2 [7, 3, 5, 2] 0 1
      (by decide) (by decide) (by decide) (by decide)⟩

/-- C4: determine_best_seam on the completed DP table returns the
bottom-row cell of some column c of minimum cumulative cost, and every
column to the left of c has a strictly larger cumulative cost (on ties
the leftmost, first encountered in the ascending scan, wins). -/
theorem C4_bottom_row_leftmost_min (img : RgbImage) (es : List Nat)
    (hW : 1 ≤ img.width) (hH : 1 ≤ img.height)
    (hD : 2 ≤ img.width ∨ img.height = 1) :
    ∃ c, c < img.width ∧
      determine_best_seam img (generate_bottom_up_vector img es)
        = some (bu_cell img es c (img.height - 1)) ∧
      (bu_cell img es c (img.height - 1)).posn = ⟨c, img.height - 1⟩ ∧
      (bu_cell img es c (img.height - 1)).cost = dp_costs img es (img.height - 1) c ∧
      (∀ c2, c2 < img.width →
        dp_costs img es (img.height - 1) c ≤ dp_costs img es (img.height - 1) c2) ∧
      (∀ c2, c2 < c →
        dp_costs img es (img.height - 1) c < dp_costs img es (img.height - 1) c2) := by
  have hD2 : 2 ≤ img.width ∨ img.height ≤ 1 := by
    rcases hD with h | h
    · exact Or.inl h
    · exact Or.inr (by omega)
  rw [generate_eq_bu_table img es hD2 hH]
  obtain ⟨c, hcW, hdet, hmin, hleft⟩ := determine_best_table img es hW hH
  exact ⟨c, hcW, hdet, bu_cell_posn img es c (img.height - 1),
    bu_cell_cost img es c (img.height - 1), hmin, hleft⟩

theorem C4_bottom_row_leftmost_min_witness :
    ((1 : Nat) ≤ wimg2.width ∧ (1 : Nat) ≤ wimg2.height ∧
      (2 ≤ wimg2.width ∨ wimg2.height = 1)) ∧
    (∃ c, c < wimg2.width ∧
      determine_best_seam wimg2 (generate_bottom_up_vector wimg2 [7, 3, 5, 2])
        = some (bu_cell wimg2 [7, 3, 5, 2] c (wimg2.height - 1)) ∧
      (bu_cell wimg2 [7, 3, 5, 2] c (wimg2.height - 1)).posn = ⟨c, wimg2.height - 1⟩ ∧
      (bu_cell wimg2 [7, 3, 5, 2] c (wimg2.height - 1)).cost
        = dp_costs wimg2 [7, 3, 5, 2] (wimg2.height - 1) c ∧
      (∀ c2, c2 < wimg2.width →
        dp_costs wimg2 [7, 3, 5, 2] (wimg2.height - 1) c
          ≤ dp_costs wimg2 [7, 3, 5, 2] (wimg2.height - 1) c2) ∧
      (∀ c2, c2 < c →
        dp_costs wimg2 [7, 3, 5, 2] (wimg2.height - 1) c
          < dp_costs wimg2 [7, 3, 5, 2] (wimg2.height - 1) c2)) :=
  ⟨⟨by decide, by decide, Or.inl (by decide)⟩,
    C4_bottom_row_leftmost_min wimg2 [7, 3, 5, 2]
      (by decide) (by decide) (Or.inl (by decide))⟩

/-- C6: the reconstructed path of the best seam has length exactly the
grid height, its i-th position lies in row i (rows ascend 0..H-1,
consecutive rows differing by exactly 1), and consecutive positions
differ in column by at most 1. -/
theorem C6_path_shape (img : RgbImage) (es : List Nat) (s : Seam)
    (hW : 1 ≤ img.width) (hH : 1 ≤ img.height)
    (hD : 2 ≤ img.width ∨ img.height = 1)
    (hs : determine_best_seam img (generate_bottom_up_vector img es) = some s) :
    (seam_to_position_vector img (generate_bottom_up_vector img es) s).length
        = img.height ∧
    rows_from 0 (seam_to_position_vector img (generate_bottom_up_vector img es) s) ∧
    List.Chain' seam_step (seam_to_position_vector img (generate_bottom_up_vector img es) s) := by
  have hD2 : 2 ≤ img.width ∨ img.height ≤ 1 := by
    rcases hD with h | h
    · exact Or.inl h
    · exact Or.inr (by omega)
  rw [generate_eq_bu_table img es hD2 hH] at hs ⊢
  obtain ⟨c, hcW, hdet, _, _⟩ := determine_best_table img es hW hH
  rw [hdet] at hs
  injection hs with h2
  subst h2
  rw [seam_to_position_vector_eq img es hD2 c (img.height - 1) hcW (by omega)]
  rcases hD2 with h2 | h1
  · obtain ⟨hlen, hrows, hchain, _, _, _⟩ := top_path_spec img es (img.height - 1) c h2 hcW
    exact ⟨by rw [hlen]; omega, hrows, hchain⟩
  · have hH1 : img.height = 1 := by omega
    rw [hH1]
    show (top_path img es c 0).length = 1 ∧ rows_from 0 (top_path img es c 0) ∧
      List.Chain' seam_step (top_path img es c 0)
    rw [top_path_zero]
    exact ⟨rfl, ⟨rfl, trivial⟩, by simp⟩

theorem C6_path_shape_witness :
    ((1 : Nat) ≤ zimg2.width ∧ (1 : Nat) ≤ zimg2.height ∧
      (2 ≤ zimg2.width ∨ zimg2.height = 1) ∧
      determine_best_seam zimg2 (generate_bottom_up_vector zimg2 [0, 0, 0, 0])
        = some ⟨⟨0, 1⟩, some ⟨0, 0⟩, 0⟩) ∧
    ((seam_to_position_vector zimg2 (generate_bottom_up_vector zimg2 [0, 0, 0, 0])
        ⟨⟨0, 1⟩, some ⟨0, 0⟩, 0⟩).length = zimg2.height ∧
      rows_from 0 (seam_to_position_vector zimg2 (generate_bottom_up_vector zimg2 [0, 0, 0, 0])
        ⟨⟨0, 1⟩, some ⟨0, 0⟩, 0⟩) ∧
      List.Chain' seam_step (seam_to_position_vector zimg2
        (generate_bottom_up_vector zimg2 [0, 0, 0, 0]) ⟨⟨0, 1⟩, some ⟨0, 0⟩, 0⟩)) :=
  ⟨⟨by decide, by decide, Or.inl (by decide), by decide⟩,
    C6_path_shape zimg2 [0, 0, 0, 0] ⟨⟨0, 1⟩, some ⟨0, 0⟩, 0⟩
      (by decide) (by decide) (Or.inl (by decide)) (by decide)⟩

/-- C5: remove_seam returns a grid one column narrower with the height
unchanged, in which each row is the original row with the pixel at the
seam's column for that row omitted, the remaining pixels kept in their
original left-to-right order with no gaps. -/
theorem C5_remove_seam_rows (img : RgbImage) (posns : List Position)
    (hW : 2 ≤ img.width) (hlen : posns.length = img.height)
    (hin : ∀ p ∈ posns, p.x < img.width) :
    (remove_seam img posns).width = img.width - 1 ∧
    (remove_seam img posns).height = img.height ∧
    ∀ y, y < img.height →
      image_row (remove_seam img posns) y
        = (image_row img y).eraseIdx ((posns.getD y ⟨0, 0⟩).x) := by
  refine ⟨rfl, rfl, ?_⟩
  intro y hy
  exact remove_seam_row img posns y hW hy hlen hin

theorem C5_remove_seam_rows_witness :
    (2 ≤ wimg2.width ∧ ([⟨1, 0⟩, ⟨0, 1⟩] : List Position).length = wimg2.height ∧
      (∀ p ∈ ([⟨1, 0⟩, ⟨0, 1⟩] : List Position), p.x < wimg2.width)) ∧
    ((remove_seam wimg2 [⟨1, 0⟩, ⟨0, 1⟩]).width = wimg2.width - 1 ∧
      (remove_seam wimg2 [⟨1, 0⟩, ⟨0, 1⟩]).height = wimg2.height ∧
      ∀ y, y < wimg2.height →
        image_row (remove_seam wimg2 [⟨1, 0⟩, ⟨0, 1⟩]) y
          = (image_row wimg2 y).eraseIdx
              ((([⟨1, 0⟩, ⟨0, 1⟩] : List Position).getD y ⟨0, 0⟩).x)) :=
  ⟨⟨by decide, by decide, by decide⟩,
    C5_remove_seam_rows wimg2 [⟨1, 0⟩, ⟨0, 1⟩] (by decide) (by decide) (by decide)⟩

theorem path_sum_from_of_rows (es : List Nat) (W : Nat) :
    ∀ (ps : List Position) (r : Nat), rows_from r ps →
      path_sum_from es W r (ps.map (fun p => p.x)) = posn_energy_sum es W ps := by
  intro ps
  induction ps with
  | nil => intro r _; simp [path_sum_from, posn_energy_sum]
  | cons p ps2 ih =>
    intro r hr
    obtain ⟨hpy, hrest⟩ := hr
    show es.getD (p.x + r * W) 0 + path_sum_from es W (r + 1) (ps2.map (fun q => q.x)) = _
    rw [ih (r + 1) hrest]
    unfold posn_energy_sum
    simp only [List.map_cons, List.sum_cons]
    rw [hpy]

theorem energies_bounded (img : RgbImage) (es : List Nat) (hwf : img.wf)
    (hes : generate_energies_vector img = some es) :
    ∀ i, es.getD i 0 ≤ 780300 := by
  intro i
  rw [getD_eq_get?]
  cases hg : es.get? i with
  | none => simp
  | some e =>
    have hmem : e ∈ es := List.get?_mem hg
    unfold generate_energies_vector at hes
    obtain ⟨p, hp, hpe⟩ := option_traverse_mem_exists hes e hmem
    obtain ⟨c, ns, _, _, _, hb, _⟩ := calculate_energy_char img hwf p.1 p.2 e hpe
    simpa using hb

/-- C1 (amended): provided the energy map is computed (on a width-1 or
height-1 grid the program panics first) and the height is small enough
that the u32 cumulative costs cannot wrap (height * 780300 < 2^32), the
best seam's reported cost equals the sum of the per-pixel energies at
its path's positions, and that cost is the minimum over all
top-to-bottom connected column paths of the sum of energies along the
path. -/
theorem C1_seam_cost_minimal (img : RgbImage) (es : List Nat) (s : Seam)
    (hwf : img.wf) (hW : 1 ≤ img.width) (hH : 1 ≤ img.height)
    (hes : generate_energies_vector img = some es)
    (hov : img.height * 780300 < 4294967296)
    (hs : determine_best_seam img (generate_bottom_up_vector img es) = some s) :
    s.cost = posn_energy_sum es img.width
        (seam_to_position_vector img (generate_bottom_up_vector img es) s) ∧
    (∀ cols : List Nat, cols.length = img.height → (∀ d ∈ cols, d < img.width) →
      List.Chain' cols_adjacent cols → s.cost ≤ path_sum_from es img.width 0 cols) ∧
    (∃ cols : List Nat, cols.length = img.height ∧ (∀ d ∈ cols, d < img.width) ∧
      List.Chain' cols_adjacent cols ∧ s.cost = path_sum_from es img.width 0 cols) := by
  have hsome : ∃ e, calculate_energy img 0 0 = some e := by
    have hg := grid_indices_get? img.width img.height 0 0 (by omega) (by omega)
    unfold generate_energies_vector at hes
    exact option_traverse_mem_some hes _ (List.get?_mem hg)
  obtain ⟨e0, he0⟩ := hsome
  obtain ⟨-, -, hW2, hH2⟩ := energy_success_dims img 0 0 e0 he0
  have hE := energies_bounded img es hwf hes
  have hD2 : 2 ≤ img.width ∨ img.height ≤ 1 := Or.inl hW2
  rw [generate_eq_bu_table img es hD2 hH] at hs ⊢
  obtain ⟨c, hcW, hdet, hmin, -⟩ := determine_best_table img es hW hH
  rw [hdet] at hs
  injection hs with h2
  subst h2
  rw [seam_to_position_vector_eq img es hD2 c (img.height - 1) hcW (by omega)]
  obtain ⟨hlen, hrows, hchain, hbnd, hlast, hsum⟩ :=
    top_path_spec img es (img.height - 1) c hW2 hcW
  have hEQ : ∀ x2, dp_costs img es (img.height - 1) x2
      = dp_costs_exact img es (img.height - 1) x2 := fun x2 =>
    dp_costs_eq_exact img es 780300 hE (img.height - 1) x2 (by omega)
  have hcost : (bu_cell img es c (img.height - 1)).cost
      = dp_costs_exact img es (img.height - 1) c := by
    rw [bu_cell_cost, hEQ c]
  refine ⟨?_, ?_, ?_⟩
  · rw [hcost, hsum]
  · intro cols hclen hcb hcc
    rcases List.eq_nil_or_concat cols with hnil | ⟨l, cb, rfl⟩
    · subst hnil
      have h0 : (0 : Nat) = img.height := hclen
      omega
    · rw [List.concat_eq_append] at hclen hcb hcc ⊢
      have hllen : l.length = img.height - 1 := by
        simp only [List.length_append, List.length_singleton] at hclen
        omega
      have hpu := pathup_of_valid img.width l cb (img.height - 1) hllen hcb hcc
      have hLB := dp_costs_exact_le_path img es 780300 hW2 hE hov
        (img.height - 1) cb ((l ++ [cb]).reverse) (by omega) hpu
      have hup := path_sum_up_reverse es img.width (l ++ [cb]) (img.height - 1)
        (by rw [hclen]; omega)
      have hcbW : cb < img.width := hcb cb (by simp)
      have h1 : dp_costs img es (img.height - 1) c ≤ dp_costs img es (img.height - 1) cb :=
        hmin cb hcbW
      rw [hEQ c, hEQ cb] at h1
      rw [bu_cell_cost, hEQ c]
      calc dp_costs_exact img es (img.height - 1) c
          ≤ dp_costs_exact img es (img.height - 1) cb := h1
        _ ≤ path_sum_up es img.width (img.height - 1) ((l ++ [cb]).reverse) := hLB
        _ = path_sum_from es img.width 0 (l ++ [cb]) := hup
  · refine ⟨(top_path img es c (img.height - 1)).map (fun p => p.x), ?_, ?_, ?_, ?_⟩
    · rw [List.length_map, hlen]
      omega
    · intro d hd
      obtain ⟨p, hp, rfl⟩ := List.mem_map.mp hd
      exact hbnd p hp
    · exact (List.chain'_map _).mpr (List.Chain'.imp (fun a b hab => hab.2) hchain)
    · rw [path_sum_from_of_rows es img.width _ 0 hrows]
      rw [bu_cell_cost, hEQ c, hsum]

theorem C1_seam_cost_minimal_witness :
    (zimg2.wf ∧ (1 : Nat) ≤ zimg2.width ∧ (1 : Nat) ≤ zimg2.height ∧
      generate_energies_vector zimg2 = some [0, 0, 0, 0] ∧
      zimg2.height * 780300 < 4294967296 ∧
      determine_best_seam zimg2 (generate_bottom_up_vector zimg2 [0, 0, 0, 0])
        = some ⟨⟨0, 1⟩, some ⟨0, 0⟩, 0⟩) ∧
    ((⟨⟨0, 1⟩, some ⟨0, 0⟩, 0⟩ : Seam).cost
        = posn_energy_sum [0, 0, 0, 0] zimg2.width
            (seam_to_position_vector zimg2 (generate_bottom_up_vector zimg2 [0, 0, 0, 0])
              ⟨⟨0, 1⟩, some ⟨0, 0⟩, 0⟩) ∧
      (∀ cols : List Nat, cols.length = zimg2.height → (∀ d ∈ cols, d < zimg2.width) →
        List.Chain' cols_adjacent cols →
        (⟨⟨0, 1⟩, some ⟨0, 0⟩, 0⟩ : Seam).cost
          ≤ path_sum_from [0, 0, 0, 0] zimg2.width 0 cols) ∧
      (∃ cols : List Nat, cols.length = zimg2.height ∧ (∀ d ∈ cols, d < zimg2.width) ∧
        List.Chain' cols_adjacent cols ∧
        (⟨⟨0, 1⟩, some ⟨0, 0⟩, 0⟩ : Seam).cost
          = path_sum_from [0, 0, 0, 0] zimg2.width 0 cols)) :=
  ⟨⟨by decide, by decide, by decide, by decide, by decide, by decide⟩,
    C1_seam_cost_minimal zimg2 [0, 0, 0, 0] ⟨⟨0, 1⟩, some ⟨0, 0⟩, 0⟩
      (by decide) (by decide) (by decide) (by decide) (by decide) (by decide)⟩

theorem stripes_wf (h : Nat) : (stripes h).wf := by
  constructor
  · simp [stripes]
  · intro p hp
    simp only [stripes, List.mem_map] at hp
    obtain ⟨i, _, hpi⟩ := hp
    by_cases hi : i % 2 = 0
    · rw [if_pos hi] at hpi
      rw [← hpi]
      decide
    · rw [if_neg hi] at hpi
      rw [← hpi]
      decide

theorem stripes_get_pixel (h x y : Nat) (hx : x < 2) (hy : y < h) :
    (stripes h).get_pixel x y
      = some (if x = 0 then (⟨0, 0, 0⟩ : Pixel) else ⟨255, 255, 255⟩) := by
  show (if x < (stripes h).width ∧ y < (stripes h).height
    then (stripes h).pixels.get? (x + y * (stripes h).width) else none) = _
  rw [if_pos ⟨hx, hy⟩]
  show ((List.range (2 * h)).map
    (fun i => if i % 2 = 0 then (⟨0, 0, 0⟩ : Pixel) else ⟨255, 255, 255⟩)).get? (x + y * 2) = _
  rw [List.get?_map, List.get?_range (by omega : x + y * 2 < 2 * h)]
  have hmod : (x + y * 2) % 2 = x % 2 := by omega
  show some (if (x + y * 2) % 2 = 0 then (⟨0, 0, 0⟩ : Pixel) else ⟨255, 255, 255⟩) = _
  rw [hmod]
  rcases (by omega : x = 0 ∨ x = 1) with rfl | rfl
  · rfl
  · rfl

theorem stripes_neighbors (h x y : Nat) (hh : 2 ≤ h) (hx : x < 2) (hy : y < h) :
    get_von_neumann_neighbors (stripes h) x y
      = ⟨1 - x, y⟩ :: (if y = 0 then [⟨x, y + 1⟩]
          else if y = h - 1 then [⟨x, y - 1⟩]
          else [⟨x, y + 1⟩, ⟨x, y - 1⟩]) := by
  have hWs : (stripes h).width = 2 := rfl
  have hHs : (stripes h).height = h := rfl
  unfold get_von_neumann_neighbors
  rw [hWs, hHs]
  rcases (by omega : x = 0 ∨ x = 1) with rfl | rfl
  · rw [if_pos rfl]
    rfl
  · rw [if_neg (by omega : ¬ (1 : Nat) = 0), if_pos (by omega : (1 : Nat) = 2 - 1)]
    rfl

theorem stripes_neighbor_bounds (h x y : Nat) (hh : 2 ≤ h) (hx : x < 2) (hy : y < h) :
    ∀ p ∈ get_von_neumann_neighbors (stripes h) x y, p.x < 2 ∧ p.y < h := by
  intro p hp
  rw [stripes_neighbors h x y hh hx hy] at hp
  rcases List.mem_cons.mp hp with rfl | hp2
  · exact ⟨by show 1 - x < 2; omega, hy⟩
  · by_cases hy0 : y = 0
    · rw [if_pos hy0] at hp2
      simp only [List.mem_singleton] at hp2
      subst hp2
      exact ⟨hx, by show y + 1 < h; omega⟩
    · by_cases hyH : y = h - 1
      · rw [if_neg hy0, if_pos hyH] at hp2
        simp only [List.mem_singleton] at hp2
        subst hp2
        exact ⟨hx, by show y - 1 < h; omega⟩
      · rw [if_neg hy0, if_neg hyH] at hp2
        simp only [List.mem_cons, List.not_mem_nil, or_false] at hp2
        rcases hp2 with rfl | rfl
        · exact ⟨hx, by show y + 1 < h; omega⟩
        · exact ⟨hx, by show y - 1 < h; omega⟩

theorem stripes_traverse (h x y : Nat) (hh : 2 ≤ h) (hx : x < 2) (hy : y < h) :
    option_traverse (fun p => (stripes h).get_pixel p.x p.y)
        (get_von_neumann_neighbors (stripes h) x y)
      = some ((get_von_neumann_neighbors (stripes h) x y).map
          (fun p => if p.x = 0 then (⟨0, 0, 0⟩ : Pixel) else ⟨255, 255, 255⟩)) := by
  apply option_traverse_eq_some
  intro p hp
  obtain ⟨h1, h2⟩ := stripes_neighbor_bounds h x y hh hx hy p hp
  exact stripes_get_pixel h p.x p.y h1 h2

theorem energy_step_self (c : Pixel) (acc : Nat) (h : acc < 4294967296) :
    energy_step c acc c = acc := by
  unfold energy_step u32_add sq_channel_diff
  simp only [sub_self, Int.natAbs_zero]
  have h0 : (0 : Nat) ^ 2 = 0 := rfl
  simp only [h0]
  omega

theorem fold_energy_all_center (c : Pixel) :
    ∀ (l : List Pixel) (acc : Nat), (∀ q ∈ l, q = c) → acc < 4294967296 →
      l.foldl (energy_step c) acc = acc := by
  intro l
  induction l with
  | nil => intro acc _ _; rfl
  | cons q l2 ih =>
    intro acc hall hacc
    have hq : q = c := hall q (by simp)
    rw [List.foldl_cons, hq, energy_step_self c acc hacc]
    exact ih acc (fun r hr => hall r (by simp [hr])) hacc

set_option maxRecDepth 16384 in
theorem stripes_energy (h x y : Nat) (hh : 2 ≤ h) (hx : x < 2) (hy : y < h) :
    calculate_energy (stripes h) x y = some 195075 := by
  unfold calculate_energy
  rw [stripes_get_pixel h x y hx hy, stripes_traverse h x y hh hx hy]
  simp only [Option.bind_eq_bind, Option.some_bind]
  rw [stripes_neighbors h x y hh hx hy]
  rcases (by omega : x = 0 ∨ x = 1) with rfl | rfl <;>
    rcases (by omega : y = 0 ∨ (¬ y = 0 ∧ y = h - 1) ∨ (¬ y = 0 ∧ ¬ y = h - 1))
      with rfl | ⟨hy0, hy1⟩ | ⟨hy0, hy1⟩
  · rfl
  · rw [if_neg hy0, if_pos hy1]
    simp only [List.map_cons, List.map_nil]
    norm_num
    decide
  · rw [if_neg hy0, if_neg hy1]
    simp only [List.map_cons, List.map_nil]
    norm_num
    decide
  · rfl
  · rw [if_neg hy0, if_pos hy1]
    simp only [List.map_cons, List.map_nil]
    norm_num
    decide
  · rw [if_neg hy0, if_neg hy1]
    simp only [List.map_cons, List.map_nil]
    norm_num
    decide

theorem map_const_nat {α : Type} (b : Nat) :
    ∀ l : List α, l.map (fun _ => b) = List.replicate l.length b := by
  intro l
  induction l with
  | nil => rfl
  | cons a as ih => simp [ih, List.replicate_succ]

theorem stripes_energies (h : Nat) (hh : 2 ≤ h) :
    generate_energies_vector (stripes h) = some (List.replicate (2 * h) 195075) := by
  have hmem : ∀ p ∈ grid_indices 2 h, p.1 < 2 ∧ p.2 < h := by
    intro p hp
    simp only [grid_indices, List.mem_flatMap, List.mem_map, List.mem_range] at hp
    obtain ⟨y, hy, x, hx, hpx⟩ := hp
    rw [← hpx]
    exact ⟨hx, hy⟩
  have htrav : option_traverse (fun p : Nat × Nat => calculate_energy (stripes h) p.1 p.2)
      (grid_indices 2 h)
      = some ((grid_indices 2 h).map (fun _ => 195075)) :=
    option_traverse_eq_some
      (fun p hp => stripes_energy h p.1 p.2 hh (hmem p hp).1 (hmem p hp).2)
  have hlen : (grid_indices 2 h).length = h * 2 :=
    @flat_length Nat (Nat × Nat) (fun y => (List.range 2).map (fun x => (x, y))) 2
      (List.range h) (fun a _ => by simp) |>.trans (by simp)
  show option_traverse (fun p : Nat × Nat => calculate_energy (stripes h) p.1 p.2)
      (grid_indices (stripes h).width (stripes h).height) = _
  have hws : (stripes h).width = 2 := rfl
  have hhs : (stripes h).height = h := rfl
  rw [hws, hhs, htrav, map_const_nat, hlen, Nat.mul_comm]

theorem replicate_getD (b : Nat) : ∀ n i : Nat, i < n →
    (List.replicate n b).getD i 0 = b := by
  intro n
  induction n with
  | zero => intro i hi; omega
  | succ n2 ih =>
    intro i hi
    cases i with
    | zero => rfl
    | succ i2 => exact ih i2 (by omega)

theorem stripes_dp_costs (h : Nat) (hh : 2 ≤ h) :
    ∀ y x, y < h → x < 2 →
      dp_costs (stripes h) (List.replicate (2 * h) 195075) y x
        = ((y + 1) * 195075) % 4294967296 := by
  intro y
  induction y with
  | zero =>
    intro x hy hx
    show (List.replicate (2 * h) 195075).getD x 0 = _
    rw [replicate_getD 195075 (2 * h) x (by omega)]
  | succ y2 ih =>
    intro x hy hx
    rw [dp_costs_succ]
    obtain ⟨-, hpx, -⟩ := dp_prev_props (stripes h) (List.replicate (2 * h) 195075) x y2
      (le_refl 2) hx
    have hws : (stripes h).width = 2 := rfl
    rw [hws, replicate_getD 195075 (2 * h) (x + (y2 + 1) * 2) (by omega),
      ih _ (by omega) hpx]
    unfold u32_add
    omega

theorem stripes_dp_exact (h : Nat) (hh : 2 ≤ h) :
    ∀ y x, y < h → x < 2 →
      dp_costs_exact (stripes h) (List.replicate (2 * h) 195075) y x
        = (y + 1) * 195075 := by
  intro y
  induction y with
  | zero =>
    intro x hy hx
    show (List.replicate (2 * h) 195075).getD x 0 = _
    rw [replicate_getD 195075 (2 * h) x (by omega)]
  | succ y2 ih =>
    intro x hy hx
    have heq : dp_costs_exact (stripes h) (List.replicate (2 * h) 195075) (y2 + 1) x
        = (List.replicate (2 * h) 195075).getD
            (x + (y2 + 1) * (stripes h).width) 0
          + dp_costs_exact (stripes h) (List.replicate (2 * h) 195075) y2
              (dp_prev (stripes h) (List.replicate (2 * h) 195075) x (y2 + 1)).x := by
      simp [dp_costs_exact]
    rw [heq]
    obtain ⟨-, hpx, -⟩ := dp_prev_props (stripes h) (List.replicate (2 * h) 195075) x y2
      (le_refl 2) hx
    have hws : (stripes h).width = 2 := rfl
    rw [hws, replicate_getD 195075 (2 * h) (x + (y2 + 1) * 2) (by omega),
      ih _ (by omega) hpx]
    ring

/-- On the 2-column, 22018-row stripes grid every pixel energy is 195075,
the energy map is computed successfully and the grid is well-formed with
positive dimensions, yet the seam returned by determine_best_seam reports
cost (22018 * 195075) % 2^32 = 194054 while the sum of the energies at
the positions of its path is 22018 * 195075 = 4295161350: the u32
accumulator of generate_bottom_up_vector wraps, so the reported cost is
not the sum of the path's energies (nor the true minimum path sum). -/
theorem C1_overflow_wrap_cex :
    (stripes 22018).wf ∧ 1 ≤ (stripes 22018).width ∧ 1 ≤ (stripes 22018).height ∧
    generate_energies_vector (stripes 22018)
      = some (List.replicate (2 * 22018) 195075) ∧
    (∃ s, determine_best_seam (stripes 22018)
        (generate_bottom_up_vector (stripes 22018)
          (List.replicate (2 * 22018) 195075)) = some s ∧
      s.cost ≠ posn_energy_sum (List.replicate (2 * 22018) 195075) (stripes 22018).width
        (seam_to_position_vector (stripes 22018)
          (generate_bottom_up_vector (stripes 22018)
            (List.replicate (2 * 22018) 195075)) s)) := by
  have hh : (2 : Nat) ≤ 22018 := by omega
  have hH : (1 : Nat) ≤ (stripes 22018).height := by decide
  have hW : (1 : Nat) ≤ (stripes 22018).width := by decide
  have hD2 : 2 ≤ (stripes 22018).width ∨ (stripes 22018).height ≤ 1 := Or.inl (le_refl 2)
  have hH1 : (stripes 22018).height - 1 = 22017 := rfl
  refine ⟨stripes_wf 22018, hW, hH, stripes_energies 22018 hh, ?_⟩
  rw [generate_eq_bu_table (stripes 22018) (List.replicate (2 * 22018) 195075) hD2 hH]
  obtain ⟨c, hcW, hdet, -, -⟩ :=
    determine_best_table (stripes 22018) (List.replicate (2 * 22018) 195075) hW hH
  refine ⟨bu_cell (stripes 22018) (List.replicate (2 * 22018) 195075) c
    ((stripes 22018).height - 1), hdet, ?_⟩
  rw [seam_to_position_vector_eq (stripes 22018) (List.replicate (2 * 22018) 195075) hD2 c
    ((stripes 22018).height - 1) hcW (by decide)]
  obtain ⟨-, -, -, -, -, hsum⟩ :=
    top_path_spec (stripes 22018) (List.replicate (2 * 22018) 195075)
      ((stripes 22018).height - 1) c (le_refl 2) hcW
  rw [hsum, bu_cell_cost, hH1]
  rw [stripes_dp_costs 22018 hh 22017 c (by omega) hcW,
    stripes_dp_exact 22018 hh 22017 c (by omega) hcW]
  decide
